import Mathlib

/-!
Verification of the directional (forward / turn-right) A* maze solver.

The program under study is the function astar of solution1.py together with
its duplicate in maze_solution_group_eltonys.py.  Grids are lists of rows of
integers (0 = free, 1 = wall), positions and direction vectors are pairs of
integers, and the search state is a position together with the direction of
arrival.  The main loop is embedded as a step function on the pair of open
and closed lists, iterated with explicit fuel; the value none of the outer
Option marks fuel exhaustion (never an outcome of the program itself), while
the inner Option mirrors the return value of astar: none is the no-path
sentinel, some path a found path.
-/

/-- A node of the search tree: the Node class.  The parent reference (None or
a Node) is split into the two constructors root and child. -/
inductive Node where
  | root (position : Int × Int) (direction : Option (Int × Int)) (g h f : Nat)
  | child (parent : Node) (position : Int × Int) (direction : Option (Int × Int)) (g h f : Nat)
  deriving DecidableEq, Repr

def Node.position : Node → Int × Int
  | .root p _ _ _ _ => p
  | .child _ p _ _ _ _ => p

def Node.direction : Node → Option (Int × Int)
  | .root _ d _ _ _ => d
  | .child _ _ d _ _ _ => d

def Node.g : Node → Nat
  | .root _ _ g _ _ => g
  | .child _ _ _ g _ _ => g

def Node.h : Node → Nat
  | .root _ _ _ h _ => h
  | .child _ _ _ _ h _ => h

def Node.f : Node → Nat
  | .root _ _ _ _ f => f
  | .child _ _ _ _ _ f => f

def Node.par : Node → Option Node
  | .root _ _ _ _ _ => none
  | .child p _ _ _ _ _ => some p

/-- The state identity used by the overridden equality of Node:
position together with direction of arrival. -/
def nodeState (n : Node) : (Int × Int) × Option (Int × Int) :=
  (n.position, n.direction)

/-- The Node.__eq__ method: equality of position and direction. -/
def nodeEq (a b : Node) : Bool :=
  a.position == b.position && a.direction == b.direction

/-- Assignment of the three cost fields of a node (child.g, child.h, child.f). -/
def setCosts : Node → Nat → Nat → Nat → Node
  | .root p d _ _ _, g, h, f => .root p d g h f
  | .child par p d _ _ _, g, h, f => .child par p d g h f

def UP : Int × Int := (-1, 0)
def RIGHT : Int × Int := (0, 1)
def DOWN : Int × Int := (1, 0)
def LEFT : Int × Int := (0, -1)

def DIRECTIONS : List (Int × Int) := [UP, RIGHT, DOWN, LEFT]

/-- The turn_right_map dictionary of solution1.py; on the four direction keys
it returns the next clockwise direction (the final else branch is never
reached on the values occurring in the program). -/
def turn_right_map (d : Int × Int) : Int × Int :=
  if d = UP then RIGHT
  else if d = RIGHT then DOWN
  else if d = DOWN then LEFT
  else if d = LEFT then UP
  else d

/-- Construction of possible_moves in solution1.py: all four directions for
the start node (direction None), built by appending each direction in turn,
and forward plus turn-right otherwise. -/
def possible_moves : Option (Int × Int) → List (Int × Int)
  | none => DIRECTIONS.foldl (fun acc m => acc ++ [m]) []
  | some d => [d, turn_right_map d]

/-- One candidate child of the child-generation loop in astar (solution1.py):
the new position, the bounds check against len(maze) and len(maze[0]), the
walkable-terrain check, and the new node carrying the move direction. -/
def mkChild (maze : List (List Int)) (cur : Node) (d : Int × Int) : Option Node :=
  let np : Int × Int := (cur.position.1 + d.1, cur.position.2 + d.2)
  if 0 ≤ np.1 ∧ np.1 < (maze.length : Int) ∧ 0 ≤ np.2 ∧ np.2 < ((maze.headD []).length : Int) then
    if (maze.getD np.1.toNat []).getD np.2.toNat 0 = 0 then
      some (.child cur np (some d) 0 0 0)
    else none
  else none

/-- The linear minimum scan of astar: current_node starts as open_list[0] and
is replaced exactly when a strictly smaller f is found, so the result is the
earliest entry attaining the minimum f, together with its index. -/
def pickMinFold (l : List (Nat × Node)) (acc : Node × Nat) : Node × Nat :=
  l.foldl (fun cur p => if p.2.f < cur.1.f then (p.2, p.1) else cur) acc

/-- The child-processing loop of astar: skip children whose state is in the
closed list, set g, h (Manhattan distance to the end position) and f, skip
the child when the open list holds the same state with a less-or-equal g,
and otherwise append it to the open list. -/
def processChildren (endPos : Int × Int) (cur : Node) (closedL : List Node) :
    List Node → List Node → List Node
  | openAcc, [] => openAcc
  | openAcc, c :: cs =>
    if closedL.any (fun m => nodeEq m c) then
      processChildren endPos cur closedL openAcc cs
    else
      let g := cur.g + 1
      let h := (c.position.1 - endPos.1).natAbs + (c.position.2 - endPos.2).natAbs
      let c2 := setCosts c g h (g + h)
      if openAcc.any (fun o => nodeEq c2 o && decide (o.g ≤ c2.g)) then
        processChildren endPos cur closedL openAcc cs
      else
        processChildren endPos cur closedL (openAcc ++ [c2]) cs

/-- Path reconstruction: collect positions while following parent links. -/
def collect : Node → List (Int × Int)
  | .root p _ _ _ _ => [p]
  | .child par p _ _ _ _ => p :: collect par

/-- The reversed collected path, running from the start to the given node. -/
def reconstruct (n : Node) : List (Int × Int) :=
  (collect n).reverse

/-- Result of one iteration of the main loop: either the function returns
(with the no-path sentinel or a path), or the loop continues with updated
open and closed lists. -/
inductive StepRes where
  | done : Option (List (Int × Int)) → StepRes
  | cont : List Node × List Node → StepRes
  deriving Repr

/-- One iteration of the while loop of astar (solution1.py): empty open list
means return None; otherwise scan for the minimum-f node, pop it, append it
to the closed list, return the reconstructed path on a goal-position match,
and otherwise generate and process the children. -/
def stepA (maze : List (List Int)) (endPos : Int × Int)
    (c : List Node × List Node) : StepRes :=
  match c.1 with
  | [] => .done none
  | x :: rest =>
    let sel := pickMinFold ((x :: rest).enum) (x, 0)
    let cur := sel.1
    let openL := (x :: rest).eraseIdx sel.2
    let closedL := c.2 ++ [cur]
    if cur.position = endPos then
      .done (some (reconstruct cur))
    else
      let children := (possible_moves cur.direction).filterMap (mkChild maze cur)
      .cont (processChildren endPos cur closedL openL children, closedL)

/-- The while loop of astar, iterated with explicit fuel.  The outer none
marks fuel exhaustion; every actual return of the program is some r. -/
def astarLoop (maze : List (List Int)) (endPos : Int × Int) :
    Nat → List Node × List Node → Option (Option (List (Int × Int)))
  | 0, _ => none
  | fuel + 1, c =>
    match stepA maze endPos c with
    | .done r => some r
    | .cont c2 => astarLoop maze endPos fuel c2

/-- astar of solution1.py: the start node has no parent, no direction and
zero costs, and seeds the open list. -/
def astar (maze : List (List Int)) (start endPos : Int × Int) (fuel : Nat) :
    Option (Option (List (Int × Int))) :=
  astarLoop maze endPos fuel ([Node.root start none 0 0 0], [])

/-- The configuration after a given number of continuing loop iterations;
none once the function has returned before that many iterations. -/
def iterA (maze : List (List Int)) (endPos : Int × Int) :
    Nat → List Node × List Node → Option (List Node × List Node)
  | 0, c => some c
  | n + 1, c =>
    match stepA maze endPos c with
    | .done _ => none
    | .cont c2 => iterA maze endPos n c2

/-!
The second source file, maze_solution_group_eltonys.py.  Its Node class and
astar function coincide with solution1.py line for line, apart from comments
and the construction of possible_moves for the start node, which binds the
DIRECTIONS list directly instead of appending its elements one by one.
-/

namespace Eltonys

def UP : Int × Int := (-1, 0)
def RIGHT : Int × Int := (0, 1)
def DOWN : Int × Int := (1, 0)
def LEFT : Int × Int := (0, -1)

def DIRECTIONS : List (Int × Int) := [UP, RIGHT, DOWN, LEFT]

/-- The turn_right_map dictionary of maze_solution_group_eltonys.py. -/
def turn_right_map (d : Int × Int) : Int × Int :=
  if d = UP then RIGHT
  else if d = RIGHT then DOWN
  else if d = DOWN then LEFT
  else if d = LEFT then UP
  else d

/-- possible_moves in maze_solution_group_eltonys.py: the DIRECTIONS list
itself for the start node, forward plus turn-right otherwise. -/
def possible_moves : Option (Int × Int) → List (Int × Int)
  | none => DIRECTIONS
  | some d => [d, turn_right_map d]

/-- Child candidate generation of maze_solution_group_eltonys.py. -/
def mkChild (maze : List (List Int)) (cur : Node) (d : Int × Int) : Option Node :=
  let np : Int × Int := (cur.position.1 + d.1, cur.position.2 + d.2)
  if 0 ≤ np.1 ∧ np.1 < (maze.length : Int) ∧ 0 ≤ np.2 ∧ np.2 < ((maze.headD []).length : Int) then
    if (maze.getD np.1.toNat []).getD np.2.toNat 0 = 0 then
      some (.child cur np (some d) 0 0 0)
    else none
  else none

/-- The linear minimum scan of maze_solution_group_eltonys.py. -/
def pickMinFold (l : List (Nat × Node)) (acc : Node × Nat) : Node × Nat :=
  l.foldl (fun cur p => if p.2.f < cur.1.f then (p.2, p.1) else cur) acc

/-- The child-processing loop of maze_solution_group_eltonys.py. -/
def processChildren (endPos : Int × Int) (cur : Node) (closedL : List Node) :
    List Node → List Node → List Node
  | openAcc, [] => openAcc
  | openAcc, c :: cs =>
    if closedL.any (fun m => nodeEq m c) then
      processChildren endPos cur closedL openAcc cs
    else
      let g := cur.g + 1
      let h := (c.position.1 - endPos.1).natAbs + (c.position.2 - endPos.2).natAbs
      let c2 := setCosts c g h (g + h)
      if openAcc.any (fun o => nodeEq c2 o && decide (o.g ≤ c2.g)) then
        processChildren endPos cur closedL openAcc cs
      else
        processChildren endPos cur closedL (openAcc ++ [c2]) cs

/-- Path reconstruction of maze_solution_group_eltonys.py. -/
def collect : Node → List (Int × Int)
  | .root p _ _ _ _ => [p]
  | .child par p _ _ _ _ => p :: collect par

def reconstruct (n : Node) : List (Int × Int) :=
  (collect n).reverse

/-- One iteration of the while loop of maze_solution_group_eltonys.py. -/
def stepA (maze : List (List Int)) (endPos : Int × Int)
    (c : List Node × List Node) : StepRes :=
  match c.1 with
  | [] => .done none
  | x :: rest =>
    let sel := pickMinFold ((x :: rest).enum) (x, 0)
    let cur := sel.1
    let openL := (x :: rest).eraseIdx sel.2
    let closedL := c.2 ++ [cur]
    if cur.position = endPos then
      .done (some (reconstruct cur))
    else
      let children := (possible_moves cur.direction).filterMap (mkChild maze cur)
      .cont (processChildren endPos cur closedL openL children, closedL)

/-- The fuelled while loop of maze_solution_group_eltonys.py. -/
def astarLoop (maze : List (List Int)) (endPos : Int × Int) :
    Nat → List Node × List Node → Option (Option (List (Int × Int)))
  | 0, _ => none
  | fuel + 1, c =>
    match stepA maze endPos c with
    | .done r => some r
    | .cont c2 => astarLoop maze endPos fuel c2

/-- astar of maze_solution_group_eltonys.py. -/
def astar (maze : List (List Int)) (start endPos : Int × Int) (fuel : Nat) :
    Option (Option (List (Int × Int))) :=
  astarLoop maze endPos fuel ([Node.root start none 0 0 0], [])

end Eltonys

lemma eltonys_possible_moves_eq : Eltonys.possible_moves = possible_moves := by
  funext d
  cases d with
  | none => rfl
  | some d => rfl

lemma eltonys_mkChild_eq : Eltonys.mkChild = mkChild := rfl

lemma eltonys_pickMinFold_eq : Eltonys.pickMinFold = pickMinFold := rfl

lemma eltonys_processChildren_eq (e : Int × Int) (cur : Node) (cl : List Node) :
    ∀ cs acc, Eltonys.processChildren e cur cl acc cs = processChildren e cur cl acc cs := by
  intro cs
  induction cs with
  | nil => intro acc; rfl
  | cons c cs ih =>
    intro acc
    simp only [Eltonys.processChildren, processChildren]
    split
    · exact ih acc
    · split
      · exact ih acc
      · exact ih _

lemma eltonys_collect_eq : ∀ n, Eltonys.collect n = collect n := by
  intro n
  induction n with
  | root p d g h f => rfl
  | child par p d g h f ih => simp [Eltonys.collect, collect, ih]

lemma eltonys_stepA_eq (maze : List (List Int)) (e : Int × Int)
    (c : List Node × List Node) : Eltonys.stepA maze e c = stepA maze e c := by
  unfold Eltonys.stepA stepA
  cases hc : c.1 with
  | nil => rfl
  | cons x rest =>
    simp only [eltonys_possible_moves_eq, eltonys_mkChild_eq, eltonys_pickMinFold_eq,
      eltonys_processChildren_eq]
    split
    · simp [Eltonys.reconstruct, reconstruct, eltonys_collect_eq]
    · rfl

lemma eltonys_astarLoop_eq (maze : List (List Int)) (e : Int × Int) :
    ∀ fuel c, Eltonys.astarLoop maze e fuel c = astarLoop maze e fuel c := by
  intro fuel
  induction fuel with
  | zero => intro c; rfl
  | succ fuel ih =>
    intro c
    simp only [Eltonys.astarLoop, astarLoop, eltonys_stepA_eq]
    cases stepA maze e c with
    | done r => rfl
    | cont c2 => exact ih c2

/-- C9: the astar functions of solution1.py and maze_solution_group_eltonys.py
are extensionally equal: on every maze, start, end (and fuel) they return the
same result, a path or the no-path sentinel. -/
theorem astar_solution1_eq_eltonys (maze : List (List Int))
    (start endPos : Int × Int) (fuel : Nat) :
    astar maze start endPos fuel = Eltonys.astar maze start endPos fuel := by
  unfold astar Eltonys.astar
  exact (eltonys_astarLoop_eq maze endPos fuel _).symm

/-!
Specification-side vocabulary: positions, bounds, cells, the movement rule,
and legal runs of moves through a maze.
-/

/-- Vector addition of a position and a direction. -/
def addP (p d : Int × Int) : Int × Int := (p.1 + d.1, p.2 + d.2)

/-- The bounds check of astar, as a predicate: row within len(maze), column
within len(maze[0]). -/
def inB (maze : List (List Int)) (p : Int × Int) : Prop :=
  0 ≤ p.1 ∧ p.1 < (maze.length : Int) ∧ 0 ≤ p.2 ∧ p.2 < ((maze.headD []).length : Int)

instance (maze : List (List Int)) (p : Int × Int) : Decidable (inB maze p) := by
  unfold inB; infer_instance

/-- The cell read maze[r][c] of astar (performed only after the bounds check). -/
def cellAt (maze : List (List Int)) (p : Int × Int) : Int :=
  (maze.getD p.1.toNat []).getD p.2.toNat 0

/-- Manhattan distance between a position and the end position. -/
def manh (e p : Int × Int) : Nat :=
  (p.1 - e.1).natAbs + (p.2 - e.2).natAbs

/-- The movement constraint: from the undirected start state any of the four
cardinal directions; afterwards only forward or the clockwise turn. -/
def moveAllowed : Option (Int × Int) → (Int × Int) → Prop
  | none, m => m ∈ DIRECTIONS
  | some prev, m => m = prev ∨ m = turn_right_map prev

/-- A legal run of moves from a given state: every move obeys the turn
constraint, and every visited cell after the starting one is in bounds and
free.  The starting cell itself is not constrained, matching the code. -/
def RunOK (maze : List (List Int)) : (Int × Int) × Option (Int × Int) → List (Int × Int) → Prop
  | _, [] => True
  | (p, d), m :: ms =>
      moveAllowed d m ∧ inB maze (addP p m) ∧ cellAt maze (addP p m) = 0 ∧
      RunOK maze (addP p m, some m) ms

/-- The search state reached after a run of moves. -/
def stateAfter : (Int × Int) × Option (Int × Int) → List (Int × Int) → (Int × Int) × Option (Int × Int)
  | st, [] => st
  | (p, _), m :: ms => stateAfter (addP p m, some m) ms

/-- The position reached after a run of moves. -/
def posAfter : Int × Int → List (Int × Int) → Int × Int
  | p, [] => p
  | p, m :: ms => posAfter (addP p m) ms

/-- The sequence of positions visited by a run of moves, start included. -/
def trail : Int × Int → List (Int × Int) → List (Int × Int)
  | p, [] => [p]
  | p, m :: ms => p :: trail (addP p m) ms

/-- Consecutive coordinate differences of a path. -/
def diffs (path : List (Int × Int)) : List (Int × Int) :=
  List.zipWith (fun a b => (b.1 - a.1, b.2 - a.2)) path path.tail

/-- A rectangular grid: every row as long as the first. -/
def Rect (maze : List (List Int)) : Prop :=
  ∀ row ∈ maze, row.length = (maze.headD []).length

lemma possible_moves_none : possible_moves none = DIRECTIONS := rfl

lemma moveAllowed_iff_mem (d : Option (Int × Int)) (m : Int × Int) :
    moveAllowed d m ↔ m ∈ possible_moves d := by
  cases d with
  | none => simp [moveAllowed, possible_moves_none]
  | some prev => simp [moveAllowed, possible_moves]

lemma mkChild_eq_some_iff {maze : List (List Int)} {cur : Node} {d : Int × Int} {c : Node} :
    mkChild maze cur d = some c ↔
      inB maze (addP cur.position d) ∧ cellAt maze (addP cur.position d) = 0 ∧
        c = .child cur (addP cur.position d) (some d) 0 0 0 := by
  simp only [mkChild, inB, cellAt, addP]
  split_ifs with h1 h2
  · constructor
    · intro h
      injection h with h
      exact ⟨h1, h2, h.symm⟩
    · rintro ⟨-, -, hc⟩
      rw [hc]
  · constructor
    · intro h
      cases h
    · rintro ⟨-, hc, -⟩
      exact absurd hc h2
  · constructor
    · intro h
      cases h
    · rintro ⟨hb, -, -⟩
      exact absurd hb h1

/-- C8: successor-move generation.  For the undirected start node the
candidate moves are exactly Up, Right, Down, Left in that order; for a node
with direction d they are exactly forward then turn-right; and turn_right_map
is the cyclic clockwise map on the four headings. -/
theorem possible_moves_spec :
    possible_moves none = [UP, RIGHT, DOWN, LEFT] ∧
    (∀ d : Int × Int, possible_moves (some d) = [d, turn_right_map d]) ∧
    turn_right_map UP = RIGHT ∧ turn_right_map RIGHT = DOWN ∧
    turn_right_map DOWN = LEFT ∧ turn_right_map LEFT = UP := by
  exact ⟨rfl, fun d => rfl, by decide, by decide, by decide, by decide⟩

lemma stepA_start_goal (maze : List (List Int)) (s : Int × Int) (cl : List Node) :
    stepA maze s ([Node.root s none 0 0 0], cl) = .done (some [s]) := by
  simp [stepA, pickMinFold, List.enum, List.enumFrom, reconstruct, collect, Node.position, Node.f]

/-- C6: when start equals the goal position (a free in-bounds cell), the
start node passes the goal test on the first pop and astar returns the
single-element path, zero moves, distinct from the no-path sentinel. -/
theorem astar_start_eq_goal (maze : List (List Int)) (s : Int × Int) (fuel : Nat)
    (hin : inB maze s) (hfree : cellAt maze s = 0) :
    astar maze s s (fuel + 1) = some (some [s]) ∧
    ([s] : List (Int × Int)).length - 1 = 0 ∧
    (some [s] : Option (List (Int × Int))) ≠ none := by
  refine ⟨?_, rfl, by simp⟩
  unfold astar astarLoop
  rw [stepA_start_goal]

/-- Witness for astar_start_eq_goal at a concrete free in-bounds cell. -/
theorem astar_start_eq_goal_witness :
    astar [[0]] (0, 0) (0, 0) 1 = some (some [(0, 0)]) ∧
    ([(0, 0)] : List (Int × Int)).length - 1 = 0 ∧
    (some [(0, 0)] : Option (List (Int × Int))) ≠ none :=
  astar_start_eq_goal [[0]] (0, 0) 0 (by decide) (by decide)

/-- C3 counterexample: astar performs no input validation.  On a grid whose
only cell is a wall, with start and goal on that wall cell, the search is
run and returns the path [(0,0)] instead of rejecting the input. -/
theorem astar_no_validation_cex :
    astar [[1]] (0, 0) (0, 0) 1 = some (some [(0, 0)]) ∧
    cellAt [[1]] (0, 0) ≠ 0 := by
  constructor
  · decide
  · decide

/-- C3 amended: astar begins the search on every input, with no validation
of rectangularity, bounds or walls.  Whenever start equals the goal it
returns [start] immediately, wall or not; and on a non-rectangular grid with
an out-of-bounds goal it simply searches until the frontier empties. -/
theorem astar_no_validation (maze : List (List Int)) (s : Int × Int) (fuel : Nat) :
    astar maze s s (fuel + 1) = some (some [s]) := by
  unfold astar astarLoop
  rw [stepA_start_goal]

lemma pickMinFold_go :
    ∀ (as : List Node) (k : Nat) (acc : Node × Nat) (l1 l2 : List Node),
      acc.2 = l1.length →
      (l1 ++ acc.1 :: l2).length = k →
      (∀ n ∈ l1, acc.1.f < n.f) →
      (∀ n ∈ l2, acc.1.f ≤ n.f) →
      ∃ m1 m2,
        l1 ++ acc.1 :: (l2 ++ as) = m1 ++ (pickMinFold (as.enumFrom k) acc).1 :: m2 ∧
        (pickMinFold (as.enumFrom k) acc).2 = m1.length ∧
        (∀ n ∈ m1, (pickMinFold (as.enumFrom k) acc).1.f < n.f) ∧
        (∀ n ∈ m2, (pickMinFold (as.enumFrom k) acc).1.f ≤ n.f) := by
  intro as
  induction as with
  | nil =>
    intro k acc l1 l2 hidx _ hl1 hl2
    refine ⟨l1, l2, by simp [pickMinFold], by simpa [pickMinFold] using hidx, ?_, ?_⟩
    · simpa [pickMinFold] using hl1
    · simpa [pickMinFold] using hl2
  | cons a as ih =>
    intro k acc l1 l2 hidx hlen hl1 hl2
    have hstep : pickMinFold ((a :: as).enumFrom k) acc =
        pickMinFold (as.enumFrom (k + 1)) (if a.f < acc.1.f then (a, k) else acc) := by
      simp [pickMinFold, List.enumFrom, List.foldl]
    by_cases hcmp : a.f < acc.1.f
    · rw [hstep, if_pos hcmp]
      have hidx2 : ((a, k) : Node × Nat).2 = (l1 ++ acc.1 :: l2).length := hlen.symm
      have hlen2 : ((l1 ++ acc.1 :: l2) ++ (a : Node) :: ([] : List Node)).length = k + 1 := by
        simp only [List.length_append, List.length_cons, List.length_nil] at hlen ⊢
        omega
      have hml1 : ∀ n ∈ l1 ++ acc.1 :: l2, ((a, k) : Node × Nat).1.f < n.f := by
        intro n hn
        rcases List.mem_append.mp hn with h | h
        · exact lt_trans hcmp (hl1 n h)
        · rcases List.mem_cons.mp h with h | h
          · rw [h]; exact hcmp
          · exact lt_of_lt_of_le hcmp (hl2 n h)
      obtain ⟨m1, m2, e1, e2, e3, e4⟩ :=
        ih (k + 1) (a, k) (l1 ++ acc.1 :: l2) [] hidx2 hlen2 hml1 (by intro n hn; cases hn)
      refine ⟨m1, m2, ?_, e2, e3, e4⟩
      rw [← e1]
      simp
    · rw [hstep, if_neg hcmp]
      have hlen2 : (l1 ++ acc.1 :: (l2 ++ [(a : Node)])).length = k + 1 := by
        simp only [List.length_append, List.length_cons, List.length_nil] at hlen ⊢
        omega
      have hml2 : ∀ n ∈ l2 ++ [(a : Node)], acc.1.f ≤ n.f := by
        intro n hn
        rcases List.mem_append.mp hn with h | h
        · exact hl2 n h
        · rcases List.mem_cons.mp h with h | h
          · rw [h]; exact le_of_not_lt hcmp
          · cases h
      obtain ⟨m1, m2, e1, e2, e3, e4⟩ := ih (k + 1) acc l1 (l2 ++ [a]) hidx hlen2 hl1 hml2
      refine ⟨m1, m2, ?_, e2, e3, e4⟩
      rw [← e1]
      simp

/-- The linear scan of the open list decomposes the list around the selected
node: the entries before it have strictly larger f, those after it have
larger-or-equal f, and the returned index is its position. -/
lemma pick_spec (x : Node) (rest : List Node) :
    ∃ l1 l2,
      x :: rest = l1 ++ (pickMinFold ((x :: rest).enum) (x, 0)).1 :: l2 ∧
      (pickMinFold ((x :: rest).enum) (x, 0)).2 = l1.length ∧
      (∀ n ∈ l1, (pickMinFold ((x :: rest).enum) (x, 0)).1.f < n.f) ∧
      (∀ n ∈ l2, (pickMinFold ((x :: rest).enum) (x, 0)).1.f ≤ n.f) := by
  have h0 : pickMinFold ((x :: rest).enum) (x, 0) = pickMinFold (rest.enumFrom 1) (x, 0) := by
    simp [pickMinFold, List.enum, List.enumFrom, List.foldl]
  rw [h0]
  obtain ⟨m1, m2, e1, e2, e3, e4⟩ :=
    pickMinFold_go rest 1 (x, 0) [] [] rfl rfl (by intro n hn; cases hn) (by intro n hn; cases hn)
  exact ⟨m1, m2, by simpa using e1, e2, e3, e4⟩

lemma pc_append (e : Int × Int) (cur : Node) (cl : List Node) :
    ∀ cs acc, ∃ suf, processChildren e cur cl acc cs = acc ++ suf := by
  intro cs
  induction cs with
  | nil => intro acc; exact ⟨[], by simp [processChildren]⟩
  | cons c cs ih =>
    intro acc
    simp only [processChildren]
    split
    · exact ih acc
    · split
      · exact ih acc
      · obtain ⟨suf, hsuf⟩ := ih (acc ++ [setCosts c (cur.g + 1)
          ((c.position.1 - e.1).natAbs + (c.position.2 - e.2).natAbs)
          (cur.g + 1 + ((c.position.1 - e.1).natAbs + (c.position.2 - e.2).natAbs))])
        exact ⟨_, by rw [hsuf, List.append_assoc]⟩

/-- C7: the node removed from the open list by the linear scan is one with
minimum f, and among entries of equal minimum f the earliest one in the list
(hence, since insertions only append, the earliest inserted) is removed;
moreover the child-processing step only ever appends to the open list, so
list order is insertion order. -/
theorem popMin_min_and_stable :
    (∀ (x : Node) (rest : List Node),
      ∃ l1 l2,
        x :: rest = l1 ++ (pickMinFold ((x :: rest).enum) (x, 0)).1 :: l2 ∧
        (pickMinFold ((x :: rest).enum) (x, 0)).2 = l1.length ∧
        (∀ n ∈ l1, (pickMinFold ((x :: rest).enum) (x, 0)).1.f < n.f) ∧
        (∀ n ∈ l2, (pickMinFold ((x :: rest).enum) (x, 0)).1.f ≤ n.f)) ∧
    (∀ (e : Int × Int) (cur : Node) (cl cs acc : List Node),
      ∃ suf, processChildren e cur cl acc cs = acc ++ suf) :=
  ⟨pick_spec, fun e cur cl cs acc => pc_append e cur cl cs acc⟩

/-- Witness for popMin_min_and_stable on a concrete two-entry open list with
a strict minimum in second position, and a concrete child-processing call. -/
theorem popMin_min_and_stable_witness :
    (∃ l1 l2,
      [Node.root (0, 0) none 0 0 5, Node.root (1, 1) none 0 0 3] =
        l1 ++ (pickMinFold (([Node.root (0, 0) none 0 0 5,
            Node.root (1, 1) none 0 0 3]).enum) (Node.root (0, 0) none 0 0 5, 0)).1 :: l2 ∧
      (pickMinFold (([Node.root (0, 0) none 0 0 5,
          Node.root (1, 1) none 0 0 3]).enum) (Node.root (0, 0) none 0 0 5, 0)).2 = l1.length ∧
      (∀ n ∈ l1, (pickMinFold (([Node.root (0, 0) none 0 0 5,
          Node.root (1, 1) none 0 0 3]).enum) (Node.root (0, 0) none 0 0 5, 0)).1.f < n.f) ∧
      (∀ n ∈ l2, (pickMinFold (([Node.root (0, 0) none 0 0 5,
          Node.root (1, 1) none 0 0 3]).enum) (Node.root (0, 0) none 0 0 5, 0)).1.f ≤ n.f)) ∧
    (∃ suf, processChildren (0, 1) (Node.root (0, 0) none 0 0 0) []
        [] [Node.child (Node.root (0, 0) none 0 0 0) (0, 1) (some (0, 1)) 0 0 0] = [] ++ suf) :=
  ⟨popMin_min_and_stable.1 (Node.root (0, 0) none 0 0 5) [Node.root (1, 1) none 0 0 3],
   popMin_min_and_stable.2 (0, 1) (Node.root (0, 0) none 0 0 0) []
     [Node.child (Node.root (0, 0) none 0 0 0) (0, 1) (some (0, 1)) 0 0 0] []⟩

/-!
Properties of legal runs, trails and the Manhattan heuristic.
-/

lemma stateAfter_fst : ∀ (ms : List (Int × Int)) (p : Int × Int) (d : Option (Int × Int)),
    (stateAfter (p, d) ms).1 = posAfter p ms := by
  intro ms
  induction ms with
  | nil => intro p d; rfl
  | cons m ms ih => intro p d; simp [stateAfter, posAfter, ih]

lemma stateAfter_append : ∀ (a b : List (Int × Int)) (st : (Int × Int) × Option (Int × Int)),
    stateAfter st (a ++ b) = stateAfter (stateAfter st a) b := by
  intro a
  induction a with
  | nil => intro b st; rfl
  | cons m a ih =>
    intro b st
    obtain ⟨p, d⟩ := st
    simp [stateAfter, ih]

lemma runOK_append : ∀ (a b : List (Int × Int)) (st : (Int × Int) × Option (Int × Int)),
    RunOK maze st (a ++ b) ↔ RunOK maze st a ∧ RunOK maze (stateAfter st a) b := by
  intro a
  induction a with
  | nil => intro b st; simp [RunOK, stateAfter]
  | cons m a ih =>
    intro b st
    obtain ⟨p, d⟩ := st
    simp [RunOK, stateAfter, ih, and_assoc]

lemma stateAfter_snoc (a : List (Int × Int)) (m : Int × Int)
    (st : (Int × Int) × Option (Int × Int)) :
    stateAfter st (a ++ [m]) = (addP (stateAfter st a).1 m, some m) := by
  rw [stateAfter_append]
  obtain ⟨p, d⟩ := stateAfter st a
  rfl

lemma trail_snoc : ∀ (ms : List (Int × Int)) (s m : Int × Int),
    trail s (ms ++ [m]) = trail s ms ++ [addP (posAfter s ms) m] := by
  intro ms
  induction ms with
  | nil => intro s m; rfl
  | cons m0 ms ih => intro s m; simp [trail, posAfter, ih]

lemma trail_length : ∀ (ms : List (Int × Int)) (s : Int × Int),
    (trail s ms).length = ms.length + 1 := by
  intro ms
  induction ms with
  | nil => intro s; rfl
  | cons m ms ih => intro s; simp [trail, ih]

lemma trail_head : ∀ (ms : List (Int × Int)) (s : Int × Int),
    (trail s ms).head? = some s := by
  intro ms s
  cases ms <;> rfl

lemma trail_getLast : ∀ (ms : List (Int × Int)) (s : Int × Int),
    (trail s ms).getLast? = some (posAfter s ms) := by
  intro ms
  induction ms with
  | nil => intro s; rfl
  | cons m ms ih =>
    intro s
    have h := ih (addP s m)
    simp only [trail, posAfter]
    rw [List.getLast?_cons, h]
    cases hms : trail (addP s m) ms with
    | nil => simp [hms] at h
    | cons q qs => simp

lemma diffs_trail : ∀ (ms : List (Int × Int)) (s : Int × Int),
    diffs (trail s ms) = ms := by
  intro ms
  induction ms with
  | nil => intro s; rfl
  | cons m ms ih =>
    intro s
    have h := ih (addP s m)
    simp only [trail, diffs] at h ⊢
    cases hms : trail (addP s m) ms with
    | nil =>
      exfalso
      have := trail_length ms (addP s m)
      rw [hms] at this
      simp at this
    | cons q qs =>
      rw [hms] at h
      have hq : q = addP s m := by
        have hh := trail_head ms (addP s m)
        rw [hms] at hh
        have := hh.symm
        simp_all
      simp only [List.tail_cons, List.zipWith_cons_cons] at h ⊢
      rw [h, hq]
      simp [addP, Prod.ext_iff]

lemma mem_trail : ∀ (ms : List (Int × Int)) (p q : Int × Int),
    q ∈ trail p ms → q = p ∨ q ∈ (trail p ms).tail := by
  intro ms p q hq
  cases ms with
  | nil => simp [trail] at hq; simp [hq]
  | cons m ms =>
    simp only [trail] at hq ⊢
    rcases List.mem_cons.mp hq with h | h
    · exact Or.inl h
    · exact Or.inr (by simpa using h)

def dirWF : Option (Int × Int) → Prop
  | none => True
  | some u => u ∈ DIRECTIONS

lemma turn_right_mem : ∀ u ∈ DIRECTIONS, turn_right_map u ∈ DIRECTIONS := by decide

lemma moveAllowed_dirs {d : Option (Int × Int)} {m : Int × Int}
    (hwf : dirWF d) (hm : moveAllowed d m) : m ∈ DIRECTIONS := by
  cases d with
  | none => exact hm
  | some u =>
    rcases hm with h | h
    · rw [h]; exact hwf
    · rw [h]; exact turn_right_mem u hwf

lemma runOK_dirs : ∀ (ms : List (Int × Int)) (p : Int × Int) (d : Option (Int × Int)),
    RunOK maze (p, d) ms → dirWF d → ∀ m ∈ ms, m ∈ DIRECTIONS := by
  intro ms
  induction ms with
  | nil => intro p d _ _ m hm; cases hm
  | cons m0 ms ih =>
    intro p d hrun hwf m hm
    obtain ⟨hmv, hb, hc, hrest⟩ := hrun
    have hm0 : m0 ∈ DIRECTIONS := moveAllowed_dirs hwf hmv
    rcases List.mem_cons.mp hm with h | h
    · rw [h]; exact hm0
    · exact ih (addP p m0) (some m0) hrest hm0 m h

lemma runOK_turnChain : ∀ (ms : List (Int × Int)) (p : Int × Int) (d : Option (Int × Int)),
    RunOK maze (p, d) ms →
    List.Chain' (fun a b => b = a ∨ b = turn_right_map a) ms := by
  intro ms
  induction ms with
  | nil => intro p d _; exact List.chain'_nil
  | cons m0 ms ih =>
    intro p d hrun
    obtain ⟨hmv, hb, hc, hrest⟩ := hrun
    cases ms with
    | nil => simp
    | cons m1 ms2 =>
      rw [List.chain'_cons]
      exact ⟨hrest.1, ih (addP p m0) (some m0) hrest⟩

lemma manh_step : ∀ m ∈ DIRECTIONS, ∀ (e p : Int × Int),
    manh e p ≤ manh e (addP p m) + 1 := by
  intro m hm e p
  fin_cases hm <;> simp [manh, addP, UP, RIGHT, DOWN, LEFT] <;> omega

lemma manh_run : ∀ (ms : List (Int × Int)) (p : Int × Int) (d : Option (Int × Int)) (e : Int × Int),
    RunOK maze (p, d) ms → dirWF d →
    manh e p ≤ ms.length + manh e (posAfter p ms) := by
  intro ms
  induction ms with
  | nil => intro p d e _ _; simp [posAfter]
  | cons m0 ms ih =>
    intro p d e hrun hwf
    obtain ⟨hmv, hb, hc, hrest⟩ := hrun
    have hm0 : m0 ∈ DIRECTIONS := moveAllowed_dirs hwf hmv
    have h1 := manh_step m0 hm0 e p
    have h2 := ih (addP p m0) (some m0) e hrest hm0
    simp only [posAfter, List.length_cons]
    omega

lemma trail_all_safe : ∀ (ms : List (Int × Int)) (p : Int × Int) (d : Option (Int × Int)),
    RunOK maze (p, d) ms → inB maze p → cellAt maze p = 0 →
    ∀ q ∈ trail p ms, inB maze q ∧ cellAt maze q = 0 := by
  intro ms
  induction ms with
  | nil => intro p d _ hb hc q hq; simp [trail] at hq; rw [hq]; exact ⟨hb, hc⟩
  | cons m0 ms ih =>
    intro p d hrun hb hc q hq
    obtain ⟨hmv, hb2, hc2, hrest⟩ := hrun
    simp only [trail] at hq
    rcases List.mem_cons.mp hq with h | h
    · rw [h]; exact ⟨hb, hc⟩
    · exact ih (addP p m0) (some m0) hrest hb2 hc2 q h

lemma trail_tail_safe : ∀ (ms : List (Int × Int)) (p : Int × Int) (d : Option (Int × Int)),
    RunOK maze (p, d) ms →
    ∀ q ∈ (trail p ms).tail, inB maze q ∧ cellAt maze q = 0 := by
  intro ms p d hrun q hq
  cases ms with
  | nil => simp [trail] at hq
  | cons m0 ms =>
    obtain ⟨hmv, hb, hc, hrest⟩ := hrun
    simp only [trail, List.tail_cons] at hq
    exact trail_all_safe ms (addP p m0) (some m0) hrest hb hc q hq

/-!
The parent-chain invariant: every node created by the search carries a legal
run from the start, with correct position, direction, move count and costs.
-/

/-- The sequence of move directions along the parent chain of a node. -/
def chainMoves : Node → List (Int × Int)
  | .root _ _ _ _ _ => []
  | .child par _ d _ _ _ => chainMoves par ++ d.toList

/-- Well-formedness of a node of the search: the root is the start node as
built by astar, and every child node records a legal move from its parent
onto a free in-bounds cell, with g incremented and h the Manhattan distance
to the end position. -/
def ChainOK (maze : List (List Int)) (s e : Int × Int) : Node → Prop
  | .root p d g h f => p = s ∧ d = none ∧ g = 0 ∧ h = 0 ∧ f = 0
  | .child par p d g h f =>
      ChainOK maze s e par ∧
      ∃ m, d = some m ∧ moveAllowed (Node.direction par) m ∧ p = addP (Node.position par) m ∧
        inB maze p ∧ cellAt maze p = 0 ∧ g = Node.g par + 1 ∧ h = manh e p ∧ f = g + h

lemma chain_run {maze : List (List Int)} {s e : Int × Int} :
    ∀ n : Node, ChainOK maze s e n →
      RunOK maze (s, none) (chainMoves n) ∧
      stateAfter (s, none) (chainMoves n) = (n.position, n.direction) ∧
      (chainMoves n).length = n.g := by
  intro n
  induction n with
  | root p d g h f =>
    intro hc
    obtain ⟨hp, hd, hg, -, -⟩ := hc
    exact ⟨trivial, by simp [chainMoves, stateAfter, Node.position, Node.direction, hp, hd],
      by simp [chainMoves, Node.g, hg]⟩
  | child par p d g h f ih =>
    intro hc
    obtain ⟨hpar, m, hd, hmv, hp, hb, hcell, hg, -, -⟩ := hc
    obtain ⟨hrun, hstate, hlen⟩ := ih hpar
    have hcm : chainMoves (Node.child par p d g h f) = chainMoves par ++ [m] := by
      simp [chainMoves, hd]
    constructor
    · rw [hcm, runOK_append]
      refine ⟨hrun, ?_⟩
      rw [hstate]
      exact ⟨hmv, hp ▸ hb, hp ▸ hcell, trivial⟩
    constructor
    · rw [hcm, stateAfter_snoc, hstate]
      simp [Node.position, Node.direction, hd, hp]
    · rw [hcm]
      simp [Node.g, hg, hlen]

lemma chain_dirWF {maze : List (List Int)} {s e : Int × Int} :
    ∀ n : Node, ChainOK maze s e n → dirWF n.direction := by
  intro n
  induction n with
  | root p d g h f =>
    intro hc
    rw [Node.direction, hc.2.1]
    trivial
  | child par p d g h f ih =>
    intro hc
    obtain ⟨hpar, m, hd, hmv, -⟩ := hc
    rw [Node.direction, hd]
    exact moveAllowed_dirs (ih hpar) hmv

lemma chain_hf {maze : List (List Int)} {s e : Int × Int} :
    ∀ n : Node, ChainOK maze s e n →
      (n.position = s ∧ n.direction = none ∧ n.g = 0 ∧ n.h = 0 ∧ n.f = 0) ∨
      (n.h = manh e n.position ∧ n.f = n.g + n.h) := by
  intro n hc
  cases n with
  | root p d g h f =>
    obtain ⟨hp, hd, hg, hh, hf⟩ := hc
    exact Or.inl ⟨hp, hd, hg, hh, hf⟩
  | child par p d g h f =>
    obtain ⟨-, m, -, -, -, -, -, -, hh, hf⟩ := hc
    exact Or.inr ⟨hh, by rw [Node.f, Node.g, Node.h, hf, hh]⟩

lemma chain_f_le {maze : List (List Int)} {s e : Int × Int} {n : Node}
    (hc : ChainOK maze s e n) : n.g ≤ n.f ∧ n.f ≤ n.g + manh e n.position := by
  rcases chain_hf n hc with ⟨-, -, hg, -, hf⟩ | ⟨hh, hf⟩
  · simp [hg, hf]
  · simp [hf, hh]

lemma collect_trail {maze : List (List Int)} {s e : Int × Int} :
    ∀ n : Node, ChainOK maze s e n → collect n = (trail s (chainMoves n)).reverse := by
  intro n
  induction n with
  | root p d g h f =>
    intro hc
    simp [collect, chainMoves, trail, hc.1]
  | child par p d g h f ih =>
    intro hc
    obtain ⟨hpar, m, hd, hmv, hp, -⟩ := hc
    obtain ⟨-, hstate, -⟩ := chain_run par hpar
    have hpos : posAfter s (chainMoves par) = Node.position par := by
      have := congrArg Prod.fst hstate
      rwa [stateAfter_fst] at this
    have hcm : chainMoves (Node.child par p d g h f) = chainMoves par ++ [m] := by
      simp [chainMoves, hd]
    rw [collect, hcm, trail_snoc, ih hpar, hpos, ← hp]
    simp

lemma reconstruct_trail {maze : List (List Int)} {s e : Int × Int} {n : Node}
    (hc : ChainOK maze s e n) : reconstruct n = trail s (chainMoves n) := by
  rw [reconstruct, collect_trail n hc, List.reverse_reverse]

/-!
Dissection of one loop iteration, and preservation of the chain invariant.
-/

/-- The costed version of a generated child, as produced by the second loop
of astar before insertion. -/
def costed (e : Int × Int) (cur c : Node) : Node :=
  setCosts c (cur.g + 1) (manh e c.position) (cur.g + 1 + manh e c.position)

lemma pc_cons (e : Int × Int) (cur : Node) (cl acc : List Node) (c : Node) (cs : List Node) :
    processChildren e cur cl acc (c :: cs) =
      if cl.any (fun m => nodeEq m c) then processChildren e cur cl acc cs
      else if acc.any (fun o => nodeEq (costed e cur c) o && decide (o.g ≤ (costed e cur c).g)) then
        processChildren e cur cl acc cs
      else processChildren e cur cl (acc ++ [costed e cur c]) cs := rfl

lemma pc_mem (e : Int × Int) (cur : Node) (cl : List Node) :
    ∀ (cs acc : List Node) (x : Node), x ∈ processChildren e cur cl acc cs →
      x ∈ acc ∨ ∃ c ∈ cs, x = costed e cur c := by
  intro cs
  induction cs with
  | nil => intro acc x hx; exact Or.inl hx
  | cons c cs ih =>
    intro acc x hx
    rw [pc_cons] at hx
    split at hx
    · rcases ih acc x hx with h | ⟨c2, hc2, he⟩
      · exact Or.inl h
      · exact Or.inr ⟨c2, List.mem_cons_of_mem _ hc2, he⟩
    · split at hx
      · rcases ih acc x hx with h | ⟨c2, hc2, he⟩
        · exact Or.inl h
        · exact Or.inr ⟨c2, List.mem_cons_of_mem _ hc2, he⟩
      · rcases ih _ x hx with h | ⟨c2, hc2, he⟩
        · rcases List.mem_append.mp h with h | h
          · exact Or.inl h
          · exact Or.inr ⟨c, List.mem_cons_self _ _, by simpa using h⟩
        · exact Or.inr ⟨c2, List.mem_cons_of_mem _ hc2, he⟩

lemma eraseIdx_middle : ∀ (l1 : List Node) (a : Node) (l2 : List Node),
    (l1 ++ a :: l2).eraseIdx l1.length = l1 ++ l2 := by
  intro l1
  induction l1 with
  | nil => intro a l2; rfl
  | cons x l1 ih => intro a l2; simp [List.eraseIdx, ih]

lemma stepA_cases (maze : List (List Int)) (e : Int × Int) (op cl : List Node) :
    (op = [] ∧ stepA maze e (op, cl) = .done none) ∨
    ∃ cur l1 l2, op = l1 ++ cur :: l2 ∧
      (∀ n ∈ l1, cur.f < n.f) ∧ (∀ n ∈ l2, cur.f ≤ n.f) ∧
      ((cur.position = e ∧ stepA maze e (op, cl) = .done (some (reconstruct cur))) ∨
       (cur.position ≠ e ∧ stepA maze e (op, cl) = .cont
         (processChildren e cur (cl ++ [cur]) (l1 ++ l2)
           ((possible_moves (Node.direction cur)).filterMap (mkChild maze cur)), cl ++ [cur]))) := by
  cases op with
  | nil => exact Or.inl ⟨rfl, rfl⟩
  | cons x rest =>
    right
    obtain ⟨l1, l2, hdec, hidx, h1, h2⟩ := pick_spec x rest
    refine ⟨(pickMinFold ((x :: rest).enum) (x, 0)).1, l1, l2, hdec, h1, h2, ?_⟩
    have herase : (x :: rest).eraseIdx (pickMinFold ((x :: rest).enum) (x, 0)).2 = l1 ++ l2 := by
      rw [hidx]
      conv_lhs => rw [hdec]
      exact eraseIdx_middle l1 _ l2
    by_cases hpos : (pickMinFold ((x :: rest).enum) (x, 0)).1.position = e
    · left
      refine ⟨hpos, ?_⟩
      simp only [stepA]
      rw [if_pos hpos]
    · right
      refine ⟨hpos, ?_⟩
      simp only [stepA]
      rw [if_neg hpos, herase]

lemma mem_children {maze : List (List Int)} {cur c : Node} :
    c ∈ (possible_moves (Node.direction cur)).filterMap (mkChild maze cur) ↔
      ∃ d, d ∈ possible_moves (Node.direction cur) ∧ mkChild maze cur d = some c := by
  simp [List.mem_filterMap]

lemma costed_child_chain {maze : List (List Int)} {s e : Int × Int} {cur c : Node}
    {d : Int × Int} (hcur : ChainOK maze s e cur)
    (hd : d ∈ possible_moves (Node.direction cur)) (hmk : mkChild maze cur d = some c) :
    ChainOK maze s e (costed e cur c) ∧
    (costed e cur c).g = cur.g + 1 ∧
    nodeState (costed e cur c) = (addP cur.position d, some d) ∧
    (costed e cur c).f = cur.g + 1 + manh e (addP cur.position d) ∧
    (costed e cur c).par = some cur := by
  obtain ⟨hb, hcell, hc⟩ := mkChild_eq_some_iff.mp hmk
  subst hc
  refine ⟨?_, rfl, rfl, rfl, rfl⟩
  exact ⟨hcur, d, rfl, (moveAllowed_iff_mem _ _).mpr hd, rfl, hb, hcell, rfl, rfl, rfl⟩

lemma step_chain {maze : List (List Int)} {s e : Int × Int} {op cl op2 cl2 : List Node}
    (hop : ∀ n ∈ op, ChainOK maze s e n) (hcl : ∀ n ∈ cl, ChainOK maze s e n)
    (hstep : stepA maze e (op, cl) = .cont (op2, cl2)) :
    (∀ n ∈ op2, ChainOK maze s e n) ∧ (∀ n ∈ cl2, ChainOK maze s e n) := by
  rcases stepA_cases maze e op cl with ⟨-, h⟩ | ⟨cur, l1, l2, hdec, -, -, hbr⟩
  · rw [h] at hstep; cases hstep
  rcases hbr with ⟨-, h⟩ | ⟨-, h⟩
  · rw [h] at hstep; cases hstep
  rw [h] at hstep
  injection hstep with hpair
  have hop2 : op2 = processChildren e cur (cl ++ [cur]) (l1 ++ l2)
      ((possible_moves (Node.direction cur)).filterMap (mkChild maze cur)) :=
    (congrArg Prod.fst hpair).symm
  have hcl2 : cl2 = cl ++ [cur] := (congrArg Prod.snd hpair).symm
  have hcur : ChainOK maze s e cur := hop cur (by rw [hdec]; simp)
  constructor
  · intro n hn
    rw [hop2] at hn
    rcases pc_mem e cur (cl ++ [cur]) _ _ n hn with hmem | ⟨c, hc, he⟩
    · refine hop n ?_
      rw [hdec]
      rcases List.mem_append.mp hmem with h2 | h2
      · exact List.mem_append.mpr (Or.inl h2)
      · exact List.mem_append.mpr (Or.inr (List.mem_cons_of_mem _ h2))
    · obtain ⟨d, hd, hmk⟩ := mem_children.mp hc
      rw [he]
      exact (costed_child_chain hcur hd hmk).1
  · intro n hn
    rw [hcl2] at hn
    rcases List.mem_append.mp hn with h2 | h2
    · exact hcl n h2
    · rw [List.mem_singleton.mp h2]
      exact hcur

lemma step_done_path {maze : List (List Int)} {s e : Int × Int} {op cl : List Node}
    {path : List (Int × Int)}
    (hop : ∀ n ∈ op, ChainOK maze s e n)
    (hstep : stepA maze e (op, cl) = .done (some path)) :
    ∃ cur ∈ op, ChainOK maze s e cur ∧ cur.position = e ∧ path = reconstruct cur := by
  rcases stepA_cases maze e op cl with ⟨-, h⟩ | ⟨cur, l1, l2, hdec, -, -, hbr⟩
  · rw [h] at hstep; cases hstep
  rcases hbr with ⟨hpos, h⟩ | ⟨-, h⟩
  · rw [h] at hstep
    injection hstep with hr
    injection hr with hr
    exact ⟨cur, by rw [hdec]; simp, hop cur (by rw [hdec]; simp), hpos, hr.symm⟩
  · rw [h] at hstep; cases hstep

lemma astarLoop_path {maze : List (List Int)} {s e : Int × Int} :
    ∀ (fuel : Nat) (op cl : List Node) (path : List (Int × Int)),
      (∀ n ∈ op, ChainOK maze s e n) → (∀ n ∈ cl, ChainOK maze s e n) →
      astarLoop maze e fuel (op, cl) = some (some path) →
      ∃ ms, RunOK maze (s, none) ms ∧ path = trail s ms ∧
        posAfter s ms = e ∧ path.length = ms.length + 1 := by
  intro fuel
  induction fuel with
  | zero => intro op cl path _ _ h; cases h
  | succ fuel ih =>
    intro op cl path hop hcl hrun
    rw [astarLoop] at hrun
    cases hs : stepA maze e (op, cl) with
    | done r =>
      rw [hs] at hrun
      injection hrun with hr
      subst hr
      obtain ⟨cur, hcur_mem, hchain, hpos, hpath⟩ := step_done_path hop hs
      obtain ⟨hrunOK, hstate, hlen⟩ := chain_run cur hchain
      refine ⟨chainMoves cur, hrunOK, ?_, ?_, ?_⟩
      · rw [hpath, reconstruct_trail hchain]
      · have := congrArg Prod.fst hstate
        rw [stateAfter_fst] at this
        rw [this, hpos]
      · rw [hpath, reconstruct_trail hchain, trail_length, hlen]
    | cont c2 =>
      rw [hs] at hrun
      obtain ⟨op2, cl2⟩ := c2
      obtain ⟨hop2, hcl2⟩ := step_chain hop hcl hs
      exact ih op2 cl2 path hop2 hcl2 hrun

lemma chainOK_start {maze : List (List Int)} {s e : Int × Int} :
    ChainOK maze s e (Node.root s none 0 0 0) :=
  ⟨rfl, rfl, rfl, rfl, rfl⟩

/-- Every path actually returned by astar is the trail of a legal run from
the start ending at the goal position. -/
lemma astar_path_run {maze : List (List Int)} {s e : Int × Int} {fuel : Nat}
    {path : List (Int × Int)} (hrun : astar maze s e fuel = some (some path)) :
    ∃ ms, RunOK maze (s, none) ms ∧ path = trail s ms ∧
      posAfter s ms = e ∧ path.length = ms.length + 1 := by
  refine astarLoop_path fuel [Node.root s none 0 0 0] [] path ?_ ?_ hrun
  · intro n hn
    rw [List.mem_singleton.mp hn]
    exact chainOK_start
  · intro n hn
    cases hn

/-- C2: every non-sentinel path returned by astar starts at the start
coordinate, ends at the goal coordinate, each consecutive pair of
coordinates differs by exactly one of the four unit steps, and each move
direction equals the previous one or its clockwise rotation, the first move
being unconstrained. -/
theorem astar_path_shape (maze : List (List Int)) (s e : Int × Int) (fuel : Nat)
    (path : List (Int × Int)) (h : astar maze s e fuel = some (some path)) :
    path.head? = some s ∧ path.getLast? = some e ∧
    (∀ m ∈ diffs path, m ∈ DIRECTIONS) ∧
    List.Chain' (fun a b => b = a ∨ b = turn_right_map a) (diffs path) := by
  obtain ⟨ms, hrunOK, hpath, hpos, -⟩ := astar_path_run h
  subst hpath
  refine ⟨trail_head ms s, ?_, ?_, ?_⟩
  · rw [trail_getLast, hpos]
  · rw [diffs_trail]
    exact runOK_dirs ms s none hrunOK trivial
  · rw [diffs_trail]
    exact runOK_turnChain ms s none hrunOK

/-- Witness for astar_path_shape on a concrete two-cell corridor. -/
theorem astar_path_shape_witness :
    List.head? [((0 : Int), (0 : Int)), (0, 1)] = some (0, 0) ∧
    List.getLast? [((0 : Int), (0 : Int)), (0, 1)] = some (0, 1) ∧
    (∀ m ∈ diffs [((0 : Int), (0 : Int)), (0, 1)], m ∈ DIRECTIONS) ∧
    List.Chain' (fun a b => b = a ∨ b = turn_right_map a)
      (diffs [((0 : Int), (0 : Int)), (0, 1)]) :=
  astar_path_shape [[0, 0]] (0, 0) (0, 1) 2 [(0, 0), (0, 1)] (by decide)

/-- C10: in every path returned by astar, every coordinate after the first
passed the bounds and wall checks, hence is in bounds and free; the first
coordinate, the start, is placed in the path without any check, and indeed
a wall start can appear in a returned path, as the concrete run shows. -/
theorem astar_tail_checked :
    (∀ (maze : List (List Int)) (s e : Int × Int) (fuel : Nat) (path : List (Int × Int)),
      astar maze s e fuel = some (some path) →
      ∀ q ∈ path.tail, inB maze q ∧ cellAt maze q = 0) ∧
    (astar [[1, 0]] (0, 0) (0, 1) 2 = some (some [(0, 0), (0, 1)]) ∧
      List.head? [((0 : Int), (0 : Int)), (0, 1)] = some (0, 0) ∧
      cellAt [[1, 0]] (0, 0) ≠ 0) := by
  constructor
  · intro maze s e fuel path h q hq
    obtain ⟨ms, hrunOK, hpath, -, -⟩ := astar_path_run h
    subst hpath
    exact trail_tail_safe ms s none hrunOK q hq
  · refine ⟨by decide, by decide, by decide⟩

/-- Witness for astar_tail_checked: the tail condition evaluated on the
concrete run with the wall start. -/
theorem astar_tail_checked_witness :
    ∀ q ∈ List.tail [((0 : Int), (0 : Int)), (0, 1)],
      inB [[1, 0]] q ∧ cellAt [[1, 0]] q = 0 :=
  astar_tail_checked.1 [[1, 0]] (0, 0) (0, 1) 2 [(0, 0), (0, 1)] (by decide)

/-!
The full search invariant: state distinctness, monotone f across the
open/closed split, parents of open nodes already closed, optimality of the
g of closed nodes, coverage of the successors of closed states, and
reachability of every legal run through an open witness.
-/

lemma posAfter_append : ∀ (a b : List (Int × Int)) (p : Int × Int),
    posAfter p (a ++ b) = posAfter (posAfter p a) b := by
  intro a
  induction a with
  | nil => intro b p; rfl
  | cons m a ih => intro b p; simp [posAfter, ih]

lemma costed_g (e : Int × Int) (cur c : Node) : (costed e cur c).g = cur.g + 1 := by
  cases c <;> rfl

lemma costed_state (e : Int × Int) (cur c : Node) :
    nodeState (costed e cur c) = nodeState c := by
  cases c <;> rfl

lemma nodeEq_iff (a b : Node) : nodeEq a b = true ↔ nodeState a = nodeState b := by
  simp [nodeEq, nodeState, Prod.ext_iff]

lemma addP_cancel {p q d : Int × Int} (h : addP p d = addP q d) : p = q := by
  simp only [addP, Prod.ext_iff] at h ⊢
  omega

structure SearchInv (maze : List (List Int)) (s e : Int × Int) (op cl : List Node) : Prop where
  chainO : ∀ n ∈ op, ChainOK maze s e n
  chainC : ∀ n ∈ cl, ChainOK maze s e n
  statesN : ((op ++ cl).map nodeState).Nodup
  fmono : ∀ m ∈ cl, ∀ n ∈ op, m.f ≤ n.f
  parentCl : ∀ n ∈ op, ∀ p, n.par = some p → p ∈ cl
  closedNotE : ∀ m ∈ cl, m.position ≠ e
  gOpt : ∀ m ∈ cl, ∀ ms, RunOK maze (s, none) ms →
    stateAfter (s, none) ms = nodeState m → m.g ≤ ms.length
  succCov : ∀ m ∈ cl, ∀ d, moveAllowed m.direction d →
    inB maze (addP m.position d) → cellAt maze (addP m.position d) = 0 →
    ∃ w, w ∈ op ++ cl ∧ nodeState w = (addP m.position d, some d) ∧ w.g ≤ m.g + 1
  reach : ∀ ms, RunOK maze (s, none) ms →
    stateAfter (s, none) ms ∉ cl.map nodeState →
    ∃ pre post, ms = pre ++ post ∧
      ∃ n, n ∈ op ∧ nodeState n = stateAfter (s, none) pre ∧ n.g ≤ pre.length

lemma inv_init (maze : List (List Int)) (s e : Int × Int) :
    SearchInv maze s e [Node.root s none 0 0 0] [] where
  chainO := by
    intro n hn
    rw [List.mem_singleton.mp hn]
    exact chainOK_start
  chainC := by intro n hn; cases hn
  statesN := by simp
  fmono := by intro m hm; cases hm
  parentCl := by
    intro n hn p hp
    rw [List.mem_singleton.mp hn] at hp
    cases hp
  closedNotE := by intro m hm; cases hm
  gOpt := by intro m hm; cases hm
  succCov := by intro m hm; cases hm
  reach := by
    intro ms hrun hnot
    exact ⟨[], ms, rfl, Node.root s none 0 0 0, List.mem_singleton_self _, rfl, Nat.le_refl 0⟩

/-- The exclusion argument: when a child of the popped minimum-f node cur is
about to be inserted, any open node with the same state has g at most
cur.g + 1; this is what makes the dominance check sufficient to keep open
states pairwise distinct. -/
lemma exclusion {maze : List (List Int)} {s e : Int × Int} {op cl : List Node}
    (inv : SearchInv maze s e op cl) {cur : Node} (hcur : cur ∈ op)
    (hmin : ∀ n ∈ op, cur.f ≤ n.f) {o : Node} (ho : o ∈ op) {d : Int × Int}
    (hstate : nodeState o = (addP cur.position d, some d)) :
    o.g ≤ cur.g + 1 := by
  have hcho : ChainOK maze s e o := inv.chainO o ho
  cases o with
  | root p0 d0 g0 h0 f0 =>
    exfalso
    have hd0 : d0 = none := hcho.2.1
    have hcon : (some d : Option (Int × Int)) = none := by
      have hsnd := congrArg Prod.snd hstate
      simp only [nodeState, Node.direction] at hsnd
      rw [hd0] at hsnd
      exact hsnd.symm
    cases hcon
  | child p' opos odir og oh of_ =>
    obtain ⟨hp', m, hm, hmv, hposm, -, -, hogm, -, -⟩ := hcho
    have hodir : odir = some d := by
      have hsnd := congrArg Prod.snd hstate
      simpa [nodeState, Node.direction] using hsnd
    have hoposs : opos = addP cur.position d := by
      have hfst := congrArg Prod.fst hstate
      simpa [nodeState, Node.position] using hfst
    have hmd : m = d := by
      rw [hodir] at hm
      exact (Option.some_injective _ hm).symm
    rw [hmd] at hposm
    have hpcur : Node.position p' = cur.position := by
      refine addP_cancel (d := d) ?_
      rw [← hposm, hoposs]
    have hpcl : p' ∈ cl := inv.parentCl _ ho p' rfl
    have hpf : p'.f ≤ cur.f := inv.fmono p' hpcl cur hcur
    show og ≤ cur.g + 1
    rcases chain_hf p' (inv.chainC p' hpcl) with ⟨-, -, hg0, -, -⟩ | ⟨hh, hf⟩
    · rw [hogm, hg0]
      omega
    · rcases chain_hf cur (inv.chainO cur hcur) with ⟨-, -, hcg, -, hcf⟩ | ⟨hch, hcf⟩
      · have h1 : p'.f = p'.g + p'.h := hf
        have h2 : p'.f ≤ 0 := by rw [hcf] at hpf; exact hpf
        omega
      · have e1 : p'.f = p'.g + manh e p'.position := by rw [hf, hh]
        have e2 : cur.f = cur.g + manh e cur.position := by rw [hcf, hch]
        have e3 : manh e p'.position = manh e cur.position := by rw [hpcur]
        omega

/-- When the minimum-f node is popped, its g is at most the length of every
legal run reaching its state: the A* optimality argument at pop time, using
the open-witness invariant, minimality of f and the admissible heuristic. -/
lemma pop_g_opt {maze : List (List Int)} {s e : Int × Int} {op cl : List Node}
    (inv : SearchInv maze s e op cl) {cur : Node} (hcur : cur ∈ op)
    (hmin : ∀ n ∈ op, cur.f ≤ n.f) :
    ∀ ms, RunOK maze (s, none) ms → stateAfter (s, none) ms = nodeState cur →
      cur.g ≤ ms.length := by
  intro ms hrun hend
  have hnotcl : stateAfter (s, none) ms ∉ cl.map nodeState := by
    intro hmem
    obtain ⟨m, hmcl, hms⟩ := List.mem_map.mp hmem
    have hcl_eq : nodeState m = nodeState cur := by rw [hms, hend]
    have hnd := inv.statesN
    rw [List.map_append, List.nodup_append] at hnd
    exact hnd.2.2 (List.mem_map_of_mem _ hcur) (hcl_eq ▸ List.mem_map_of_mem _ hmcl)
  obtain ⟨pre, post, hsplit, n, hn_op, hn_state, hn_g⟩ := inv.reach ms hrun hnotcl
  rcases chain_hf cur (inv.chainO cur hcur) with ⟨-, -, hcg, -, -⟩ | ⟨hch, hcf⟩
  · rw [hcg]
    omega
  · have hfmin : cur.f ≤ n.f := hmin n hn_op
    have hchn := inv.chainO n hn_op
    have hnpos : n.position = posAfter s pre := by
      have hfst := congrArg Prod.fst hn_state
      rw [stateAfter_fst] at hfst
      exact hfst
    have hndir : n.direction = (stateAfter (s, none) pre).2 := congrArg Prod.snd hn_state
    have hnf_le : n.f ≤ n.g + manh e n.position := (chain_f_le hchn).2
    subst hsplit
    rw [runOK_append] at hrun
    obtain ⟨hpre_run, hpost_run⟩ := hrun
    have hwf : dirWF (stateAfter (s, none) pre).2 := by
      rw [← hndir]
      exact chain_dirWF n hchn
    have hpost_run2 : RunOK maze ((stateAfter (s, none) pre).1, (stateAfter (s, none) pre).2) post := by
      simpa using hpost_run
    have hadm := manh_run post (stateAfter (s, none) pre).1 (stateAfter (s, none) pre).2 e
      hpost_run2 hwf
    have hfinal : posAfter (stateAfter (s, none) pre).1 post = cur.position := by
      rw [stateAfter_fst, ← posAfter_append]
      have hfst := congrArg Prod.fst hend
      rw [stateAfter_fst] at hfst
      exact hfst
    rw [hfinal] at hadm
    rw [stateAfter_fst] at hadm
    have h2 : n.f ≤ pre.length + manh e (posAfter s pre) := by
      rw [hnpos] at hnf_le
      omega
    have h3 : cur.f = cur.g + manh e cur.position := by rw [hcf, hch]
    simp only [List.length_append]
    omega

/-- Consistency of the heuristic: the f of a generated child is at least the
f of its parent. -/
lemma child_f_ge {maze : List (List Int)} {s e : Int × Int} {cur : Node}
    (hcur : ChainOK maze s e cur) {d : Int × Int}
    (hd : d ∈ possible_moves (Node.direction cur)) :
    cur.f ≤ cur.g + 1 + manh e (addP cur.position d) := by
  have hdir : d ∈ DIRECTIONS :=
    moveAllowed_dirs (chain_dirWF cur hcur) ((moveAllowed_iff_mem _ _).mpr hd)
  rcases chain_hf cur hcur with ⟨-, -, -, -, hcf⟩ | ⟨hch, hcf⟩
  · rw [hcf]
    omega
  · have hstep := manh_step d hdir e cur.position
    omega

lemma pc_mem_mono (e : Int × Int) (cur : Node) (cl' : List Node)
    (cs acc : List Node) (x : Node) (hx : x ∈ acc) :
    x ∈ processChildren e cur cl' acc cs := by
  obtain ⟨suf, hsuf⟩ := pc_append e cur cl' cs acc
  rw [hsuf]
  exact List.mem_append_left _ hx

lemma pc_nodup (e : Int × Int) (cur : Node) (cl' : List Node) :
    ∀ (cs acc : List Node),
      ((acc ++ cl').map nodeState).Nodup →
      (∀ c ∈ cs, ∀ o ∈ acc, nodeState o = nodeState c → o.g ≤ cur.g + 1) →
      ((processChildren e cur cl' acc cs ++ cl').map nodeState).Nodup := by
  intro cs
  induction cs with
  | nil => intro acc hnd _; exact hnd
  | cons c cs ih =>
    intro acc hnd hexcl
    rw [pc_cons]
    split
    · exact ih acc hnd (fun c' hc' => hexcl c' (List.mem_cons_of_mem _ hc'))
    · rename_i hclosed
      split
      · exact ih acc hnd (fun c' hc' => hexcl c' (List.mem_cons_of_mem _ hc'))
      · rename_i hdom
        apply ih
        · have hfresh_acc : ∀ o ∈ acc, nodeState o ≠ nodeState c := by
            intro o ho heq
            apply hdom
            rw [List.any_eq_true]
            refine ⟨o, ho, ?_⟩
            rw [Bool.and_eq_true, nodeEq_iff, costed_state]
            have hog : o.g ≤ (costed e cur c).g := by
              rw [costed_g]
              exact hexcl c (List.mem_cons_self _ _) o ho heq
            exact ⟨heq.symm, decide_eq_true hog⟩
          have hfresh_cl : ∀ mm ∈ cl', nodeState mm ≠ nodeState c := by
            intro mm hmm heq
            apply hclosed
            rw [List.any_eq_true]
            exact ⟨mm, hmm, (nodeEq_iff mm c).mpr heq⟩
          have hperm : ((acc ++ [costed e cur c]) ++ cl').Perm (costed e cur c :: (acc ++ cl')) := by
            have h1 : (acc ++ [costed e cur c]) ++ cl' = acc ++ (costed e cur c :: cl') := by simp
            rw [h1]
            exact List.perm_middle
          rw [List.Perm.nodup_iff (hperm.map nodeState)]
          rw [List.map_cons, List.nodup_cons]
          constructor
          · intro hmem
            obtain ⟨o, ho, hos⟩ := List.mem_map.mp hmem
            rw [costed_state] at hos
            rcases List.mem_append.mp ho with h | h
            · exact hfresh_acc o h hos
            · exact hfresh_cl o h hos
          · exact hnd
        · intro c' hc' o ho heq
          rcases List.mem_append.mp ho with h | h
          · exact hexcl c' (List.mem_cons_of_mem _ hc') o h heq
          · rw [List.mem_singleton.mp h]
            rw [costed_g]

lemma pc_cover (e : Int × Int) (cur : Node) (cl' : List Node) :
    ∀ (cs acc : List Node), ∀ c ∈ cs,
      (∃ mm ∈ cl', nodeState mm = nodeState c) ∨
      (∃ o ∈ processChildren e cur cl' acc cs, nodeState o = nodeState c ∧ o.g ≤ cur.g + 1) := by
  intro cs
  induction cs with
  | nil => intro acc c hc; cases hc
  | cons c0 cs ih =>
    intro acc c hc
    rw [pc_cons]
    rcases List.mem_cons.mp hc with rfl | hc2
    · split
      · rename_i hclosed
        obtain ⟨mm, hmm, hmc⟩ := List.any_eq_true.mp hclosed
        exact Or.inl ⟨mm, hmm, (nodeEq_iff mm c).mp hmc⟩
      · split
        · rename_i hdom
          obtain ⟨o, ho, hoc⟩ := List.any_eq_true.mp hdom
          rw [Bool.and_eq_true] at hoc
          refine Or.inr ⟨o, pc_mem_mono e cur cl' cs acc o ho, ?_, ?_⟩
          · rw [← (nodeEq_iff _ _).mp hoc.1, costed_state]
          · have := of_decide_eq_true hoc.2
            rw [costed_g] at this
            exact this
        · refine Or.inr ⟨costed e cur c, ?_, costed_state e cur c, le_of_eq (costed_g e cur c)⟩
          exact pc_mem_mono e cur cl' cs (acc ++ [costed e cur c]) _
            (List.mem_append_right _ (List.mem_singleton_self _))
    · split
      · exact ih acc c hc2
      · split
        · exact ih acc c hc2
        · exact ih _ c hc2

lemma runOK_cons_iff (maze : List (List Int)) (st : (Int × Int) × Option (Int × Int))
    (m : Int × Int) (ms : List (Int × Int)) :
    RunOK maze st (m :: ms) ↔
      moveAllowed st.2 m ∧ inB maze (addP st.1 m) ∧ cellAt maze (addP st.1 m) = 0 ∧
      RunOK maze (addP st.1 m, some m) ms := by
  obtain ⟨p, d⟩ := st
  exact Iff.rfl

/-- From a witness (open or closed) on a prefix of a legal run whose end
state is not closed, successor coverage of closed nodes yields an open
witness on some prefix. -/
lemma cover_step {maze : List (List Int)} {s : Int × Int} {op2 cl2 : List Node}
    (hsucc : ∀ m ∈ cl2, ∀ d, moveAllowed m.direction d →
      inB maze (addP m.position d) → cellAt maze (addP m.position d) = 0 →
      ∃ w, w ∈ op2 ++ cl2 ∧ nodeState w = (addP m.position d, some d) ∧ w.g ≤ m.g + 1) :
    ∀ (post pre ms : List (Int × Int)), ms = pre ++ post → RunOK maze (s, none) ms →
      stateAfter (s, none) ms ∉ cl2.map nodeState →
      (∃ w, (w ∈ op2 ∨ w ∈ cl2) ∧ nodeState w = stateAfter (s, none) pre ∧ w.g ≤ pre.length) →
      ∃ pre2 post2, ms = pre2 ++ post2 ∧
        ∃ n, n ∈ op2 ∧ nodeState n = stateAfter (s, none) pre2 ∧ n.g ≤ pre2.length := by
  intro post
  induction post with
  | nil =>
    intro pre ms hms hrun hnot hwit
    obtain ⟨w, hw, hws, hwg⟩ := hwit
    rcases hw with hw | hw
    · exact ⟨pre, [], hms, w, hw, hws, hwg⟩
    · exfalso
      apply hnot
      rw [List.append_nil] at hms
      subst hms
      exact List.mem_map.mpr ⟨w, hw, hws⟩
  | cons m rest ih =>
    intro pre ms hms hrun hnot hwit
    obtain ⟨w, hw, hws, hwg⟩ := hwit
    rcases hw with hw | hw
    · exact ⟨pre, m :: rest, hms, w, hw, hws, hwg⟩
    · have hrun2 := hrun
      rw [hms, runOK_append, runOK_cons_iff] at hrun2
      obtain ⟨hpre, hmv, hb, hcell, hrest⟩ := hrun2
      have hwpos : w.position = (stateAfter (s, none) pre).1 := congrArg Prod.fst hws
      have hwdir : w.direction = (stateAfter (s, none) pre).2 := congrArg Prod.snd hws
      obtain ⟨w2, hw2mem, hw2state, hw2g⟩ :=
        hsucc w hw m (by rw [hwdir]; exact hmv) (by rw [hwpos]; exact hb)
          (by rw [hwpos]; exact hcell)
      have hstep_state : (addP w.position m, some m) = stateAfter (s, none) (pre ++ [m]) := by
        rw [stateAfter_snoc, hwpos]
      refine ih (pre ++ [m]) ms (by rw [hms, List.append_assoc]; rfl) hrun hnot ?_
      refine ⟨w2, ?_, ?_, ?_⟩
      · exact List.mem_append.mp hw2mem
      · rw [hw2state, hstep_state]
      · rw [List.length_append, List.length_singleton]
        omega

/-- Preservation of the full search invariant across one continuing loop
iteration. -/
theorem inv_step {maze : List (List Int)} {s e : Int × Int} {op cl op2 cl2 : List Node}
    (inv : SearchInv maze s e op cl)
    (hstep : stepA maze e (op, cl) = .cont (op2, cl2)) :
    SearchInv maze s e op2 cl2 := by
  obtain ⟨hchainO2, hchainC2⟩ := step_chain inv.chainO inv.chainC hstep
  rcases stepA_cases maze e op cl with ⟨-, h⟩ | ⟨cur, l1, l2, hdec, hl1, hl2, hbr⟩
  · rw [h] at hstep; cases hstep
  rcases hbr with ⟨-, h⟩ | ⟨hne, h⟩
  · rw [h] at hstep; cases hstep
  rw [h] at hstep
  injection hstep with hpair
  have hop2 : op2 = processChildren e cur (cl ++ [cur]) (l1 ++ l2)
      ((possible_moves (Node.direction cur)).filterMap (mkChild maze cur)) :=
    (congrArg Prod.fst hpair).symm
  have hcl2 : cl2 = cl ++ [cur] := (congrArg Prod.snd hpair).symm
  subst hop2
  subst hcl2
  have hcur_op : cur ∈ op := by rw [hdec]; simp
  have hchcur : ChainOK maze s e cur := inv.chainO cur hcur_op
  have hmin : ∀ n ∈ op, cur.f ≤ n.f := by
    intro n hn
    rw [hdec] at hn
    rcases List.mem_append.mp hn with h2 | h2
    · exact le_of_lt (hl1 n h2)
    · rcases List.mem_cons.mp h2 with h3 | h3
      · rw [h3]
      · exact hl2 n h3
  have hop_sub : ∀ x ∈ l1 ++ l2, x ∈ op := by
    intro x hx
    rw [hdec]
    rcases List.mem_append.mp hx with h2 | h2
    · exact List.mem_append.mpr (Or.inl h2)
    · exact List.mem_append.mpr (Or.inr (List.mem_cons_of_mem _ h2))
  have hop_cases : ∀ x ∈ op, x ∈ l1 ++ l2 ∨ x = cur := by
    intro x hx
    rw [hdec] at hx
    rcases List.mem_append.mp hx with h2 | h2
    · exact Or.inl (List.mem_append.mpr (Or.inl h2))
    · rcases List.mem_cons.mp h2 with h3 | h3
      · exact Or.inr h3
      · exact Or.inl (List.mem_append.mpr (Or.inr h3))
  have hchild_state : ∀ c ∈ (possible_moves (Node.direction cur)).filterMap (mkChild maze cur),
      ∃ d, d ∈ possible_moves (Node.direction cur) ∧ mkChild maze cur d = some c ∧
        nodeState c = (addP cur.position d, some d) := by
    intro c hc
    obtain ⟨d, hd, hmk⟩ := mem_children.mp hc
    obtain ⟨-, -, hc_eq⟩ := mkChild_eq_some_iff.mp hmk
    exact ⟨d, hd, hmk, by rw [hc_eq]; rfl⟩
  have hGoptC : ∀ m ∈ cl ++ [cur], ∀ ms, RunOK maze (s, none) ms →
      stateAfter (s, none) ms = nodeState m → m.g ≤ ms.length := by
    intro m hm
    rcases List.mem_append.mp hm with h2 | h2
    · exact inv.gOpt m h2
    · rw [List.mem_singleton.mp h2]
      exact pop_g_opt inv hcur_op hmin
  have hfmonoC : ∀ m ∈ cl ++ [cur], m.f ≤ cur.f := by
    intro m hm
    rcases List.mem_append.mp hm with h2 | h2
    · exact inv.fmono m h2 cur hcur_op
    · rw [List.mem_singleton.mp h2]
  have hsuccC : ∀ m ∈ cl ++ [cur], ∀ d, moveAllowed m.direction d →
      inB maze (addP m.position d) → cellAt maze (addP m.position d) = 0 →
      ∃ w, w ∈ processChildren e cur (cl ++ [cur]) (l1 ++ l2)
          ((possible_moves (Node.direction cur)).filterMap (mkChild maze cur)) ++ (cl ++ [cur]) ∧
        nodeState w = (addP m.position d, some d) ∧ w.g ≤ m.g + 1 := by
    intro m hm d hmv hb hcell
    rcases List.mem_append.mp hm with h2 | h2
    · obtain ⟨w, hwmem, hwstate, hwg⟩ := inv.succCov m h2 d hmv hb hcell
      rcases List.mem_append.mp hwmem with h3 | h3
      · rcases hop_cases w h3 with h4 | h4
        · exact ⟨w, List.mem_append.mpr (Or.inl (pc_mem_mono _ _ _ _ _ w h4)), hwstate, hwg⟩
        · exact ⟨w, List.mem_append.mpr (Or.inr (List.mem_append.mpr (Or.inr
            (by rw [← h4]; exact List.mem_singleton_self w)))), hwstate, hwg⟩
      · exact ⟨w, List.mem_append.mpr (Or.inr (List.mem_append.mpr (Or.inl h3))), hwstate, hwg⟩
    · rw [List.mem_singleton.mp h2] at hmv hb hcell ⊢
      have hd_pm : d ∈ possible_moves (Node.direction cur) := (moveAllowed_iff_mem _ _).mp hmv
      have hmk : mkChild maze cur d =
          some (Node.child cur (addP cur.position d) (some d) 0 0 0) :=
        mkChild_eq_some_iff.mpr ⟨hb, hcell, rfl⟩
      have hc0_mem : Node.child cur (addP cur.position d) (some d) 0 0 0 ∈
          (possible_moves (Node.direction cur)).filterMap (mkChild maze cur) :=
        mem_children.mpr ⟨d, hd_pm, hmk⟩
      have hc0_state : nodeState (Node.child cur (addP cur.position d) (some d) 0 0 0) =
          (addP cur.position d, some d) := rfl
      rcases pc_cover e cur (cl ++ [cur])
          ((possible_moves (Node.direction cur)).filterMap (mkChild maze cur)) (l1 ++ l2)
          (Node.child cur (addP cur.position d) (some d) 0 0 0) hc0_mem with
        ⟨mm, hmm, hmm_state⟩ | ⟨o, ho, ho_state, ho_g⟩
      · refine ⟨mm, List.mem_append.mpr (Or.inr hmm), by rw [hmm_state, hc0_state], ?_⟩
        obtain ⟨hrun_cm, hstate_cm, hlen_cm⟩ := chain_run cur hchcur
        have hrun_ext : RunOK maze (s, none) (chainMoves cur ++ [d]) := by
          rw [runOK_append, hstate_cm, runOK_cons_iff]
          exact ⟨hrun_cm, hmv, hb, hcell, trivial⟩
        have hstate_ext : stateAfter (s, none) (chainMoves cur ++ [d]) =
            (addP cur.position d, some d) := by
          rw [stateAfter_snoc, hstate_cm]
        have := hGoptC mm hmm (chainMoves cur ++ [d]) hrun_ext
          (by rw [hstate_ext, ← hc0_state, ← hmm_state])
        rw [List.length_append, List.length_singleton, hlen_cm] at this
        exact this
      · exact ⟨o, List.mem_append.mpr (Or.inl ho), by rw [ho_state, hc0_state], ho_g⟩
  refine ⟨hchainO2, hchainC2, ?_, ?_, ?_, ?_, hGoptC, hsuccC, ?_⟩
  · -- state distinctness
    apply pc_nodup
    · have hperm : (((l1 ++ l2) ++ (cl ++ [cur]))).Perm (op ++ cl) := by
        rw [hdec]
        have p0 : (l1 ++ l2) ++ (cl ++ [cur]) = ((l1 ++ l2) ++ cl) ++ [cur] := by simp
        have p4 : (l1 ++ cur :: l2) ++ cl = l1 ++ cur :: (l2 ++ cl) := by simp
        rw [p0, p4]
        have p1 : (((l1 ++ l2) ++ cl) ++ [cur]).Perm (cur :: ((l1 ++ l2) ++ cl)) :=
          List.perm_append_singleton _ _
        have p2 : (cur :: ((l1 ++ l2) ++ cl)).Perm (cur :: (l1 ++ (l2 ++ cl))) := by
          rw [List.append_assoc]
        have p3 : (cur :: (l1 ++ (l2 ++ cl))).Perm (l1 ++ cur :: (l2 ++ cl)) :=
          List.perm_middle.symm
        exact (p1.trans p2).trans p3
      exact (List.Perm.nodup_iff (hperm.map nodeState)).mpr inv.statesN
    · intro c hc o ho heq
      obtain ⟨d, hd, hmk, hstate⟩ := hchild_state c hc
      exact exclusion inv hcur_op hmin (hop_sub o ho) (by rw [heq, hstate])
  · -- f monotone
    intro m hm n hn
    have hmf : m.f ≤ cur.f := hfmonoC m hm
    rcases pc_mem e cur (cl ++ [cur]) _ _ n hn with h2 | ⟨c, hc, he⟩
    · rcases List.mem_append.mp hm with h3 | h3
      · exact inv.fmono m h3 n (hop_sub n h2)
      · rw [List.mem_singleton.mp h3]
        exact hmin n (hop_sub n h2)
    · obtain ⟨d, hd, hmk, hstate⟩ := hchild_state c hc
      obtain ⟨-, -, -, hcf, -⟩ := costed_child_chain hchcur hd hmk
      rw [he, hcf]
      exact le_trans hmf (child_f_ge hchcur hd)
  · -- parents closed
    intro n hn p hp
    rcases pc_mem e cur (cl ++ [cur]) _ _ n hn with h2 | ⟨c, hc, he⟩
    · exact List.mem_append.mpr (Or.inl (inv.parentCl n (hop_sub n h2) p hp))
    · obtain ⟨d, hd, hmk, hstate⟩ := hchild_state c hc
      obtain ⟨-, -, -, -, hpar⟩ := costed_child_chain hchcur hd hmk
      rw [he, hpar] at hp
      rw [← Option.some_injective _ hp]
      exact List.mem_append.mpr (Or.inr (List.mem_singleton_self _))
  · -- closed positions are not the goal
    intro m hm
    rcases List.mem_append.mp hm with h2 | h2
    · exact inv.closedNotE m h2
    · rw [List.mem_singleton.mp h2]
      exact hne
  · -- reach
    intro ms hrun hnot
    have hnotcl : stateAfter (s, none) ms ∉ cl.map nodeState := by
      intro hmem
      apply hnot
      obtain ⟨m, hm, hms⟩ := List.mem_map.mp hmem
      exact List.mem_map.mpr ⟨m, List.mem_append.mpr (Or.inl hm), hms⟩
    obtain ⟨pre, post, hsplit, n, hn_op, hn_state, hn_g⟩ := inv.reach ms hrun hnotcl
    rcases hop_cases n hn_op with h2 | h2
    · exact ⟨pre, post, hsplit, n, pc_mem_mono _ _ _ _ _ n h2, hn_state, hn_g⟩
    · refine cover_step hsuccC post pre ms hsplit hrun hnot ?_
      refine ⟨cur, Or.inr (List.mem_append.mpr (Or.inr (List.mem_singleton_self _))), ?_, ?_⟩
      · rw [← h2]; exact hn_state
      · rw [← h2]; exact hn_g

lemma manh_self (e : Int × Int) : manh e e = 0 := by simp [manh]

/-- When a step returns a path, that path is the trail of a legal run to the
goal position whose move count is minimal among all legal runs to the goal
position. -/
lemma step_done_opt {maze : List (List Int)} {s e : Int × Int} {op cl : List Node}
    {path : List (Int × Int)}
    (inv : SearchInv maze s e op cl)
    (hstep : stepA maze e (op, cl) = .done (some path)) :
    ∃ ms, RunOK maze (s, none) ms ∧ path = trail s ms ∧ posAfter s ms = e ∧
      path.length = ms.length + 1 ∧
      ∀ ms2, RunOK maze (s, none) ms2 → posAfter s ms2 = e → ms.length ≤ ms2.length := by
  rcases stepA_cases maze e op cl with ⟨-, h⟩ | ⟨cur, l1, l2, hdec, hl1, hl2, hbr⟩
  · rw [h] at hstep; cases hstep
  rcases hbr with ⟨hpos, h⟩ | ⟨-, h⟩
  swap
  · rw [h] at hstep; cases hstep
  rw [h] at hstep
  injection hstep with hr
  injection hr with hr
  have hcur_op : cur ∈ op := by rw [hdec]; simp
  have hmin : ∀ n ∈ op, cur.f ≤ n.f := by
    intro n hn
    rw [hdec] at hn
    rcases List.mem_append.mp hn with h2 | h2
    · exact le_of_lt (hl1 n h2)
    · rcases List.mem_cons.mp h2 with h3 | h3
      · rw [h3]
      · exact hl2 n h3
  have hchcur := inv.chainO cur hcur_op
  obtain ⟨hrun_cm, hstate_cm, hlen_cm⟩ := chain_run cur hchcur
  have hposcm : posAfter s (chainMoves cur) = cur.position := by
    have hfst := congrArg Prod.fst hstate_cm
    rw [stateAfter_fst] at hfst
    exact hfst
  refine ⟨chainMoves cur, hrun_cm, ?_, ?_, ?_, ?_⟩
  · rw [← hr, reconstruct_trail hchcur]
  · rw [hposcm, hpos]
  · rw [← hr, reconstruct_trail hchcur, trail_length, hlen_cm]
  · intro ms2 hrun2 hpos2
    rw [hlen_cm]
    have hnotcl : stateAfter (s, none) ms2 ∉ cl.map nodeState := by
      intro hmem
      obtain ⟨m, hm, hms⟩ := List.mem_map.mp hmem
      apply inv.closedNotE m hm
      have hfst := congrArg Prod.fst hms
      rw [stateAfter_fst] at hfst
      simp only [nodeState] at hfst
      rw [hfst, hpos2]
    obtain ⟨pre, post, hsplit, n, hn_op, hn_state, hn_g⟩ := inv.reach ms2 hrun2 hnotcl
    rcases chain_hf cur hchcur with ⟨-, -, hcg, -, -⟩ | ⟨hch, hcf⟩
    · rw [hcg]
      omega
    · have hfmin : cur.f ≤ n.f := hmin n hn_op
      have hchn := inv.chainO n hn_op
      have hnpos : n.position = posAfter s pre := by
        have hfst := congrArg Prod.fst hn_state
        rw [stateAfter_fst] at hfst
        exact hfst
      have hndir : n.direction = (stateAfter (s, none) pre).2 := congrArg Prod.snd hn_state
      have hnf_le := (chain_f_le hchn).2
      subst hsplit
      rw [runOK_append] at hrun2
      obtain ⟨hpre_run, hpost_run⟩ := hrun2
      have hwf : dirWF (stateAfter (s, none) pre).2 := by
        rw [← hndir]
        exact chain_dirWF n hchn
      have hpost_run2 : RunOK maze ((stateAfter (s, none) pre).1, (stateAfter (s, none) pre).2) post := by
        simpa using hpost_run
      have hadm := manh_run post (stateAfter (s, none) pre).1 (stateAfter (s, none) pre).2 e
        hpost_run2 hwf
      have hfinal : posAfter (stateAfter (s, none) pre).1 post = e := by
        rw [stateAfter_fst, ← posAfter_append]
        exact hpos2
      rw [hfinal, manh_self, stateAfter_fst] at hadm
      have h3 : cur.f = cur.g := by
        rw [hcf, hch, hpos, manh_self]
        omega
      have h2 : n.f ≤ pre.length + manh e (posAfter s pre) := by
        rw [hnpos] at hnf_le
        omega
      simp only [List.length_append]
      omega

lemma astarLoop_opt {maze : List (List Int)} {s e : Int × Int} :
    ∀ (fuel : Nat) (op cl : List Node) (path : List (Int × Int)),
      SearchInv maze s e op cl →
      astarLoop maze e fuel (op, cl) = some (some path) →
      ∃ ms, RunOK maze (s, none) ms ∧ path = trail s ms ∧ posAfter s ms = e ∧
        path.length = ms.length + 1 ∧
        ∀ ms2, RunOK maze (s, none) ms2 → posAfter s ms2 = e → ms.length ≤ ms2.length := by
  intro fuel
  induction fuel with
  | zero => intro op cl path _ h; cases h
  | succ fuel ih =>
    intro op cl path inv hrun
    rw [astarLoop] at hrun
    cases hs : stepA maze e (op, cl) with
    | done r =>
      rw [hs] at hrun
      injection hrun with hr
      subst hr
      exact step_done_opt inv hs
    | cont c2 =>
      rw [hs] at hrun
      obtain ⟨op2, cl2⟩ := c2
      exact ih op2 cl2 path (inv_step inv hs) hrun

/-- C1: whenever astar returns a path (not the no-path sentinel), its move
count, the length of the path minus one, is the least element of the set of
move counts of legal runs from the start to the goal position under the
forward / turn-right constraint. -/
theorem astar_optimal (maze : List (List Int)) (s e : Int × Int) (fuel : Nat)
    (path : List (Int × Int))
    (hrect : Rect maze) (hs : inB maze s) (hsf : cellAt maze s = 0)
    (he : inB maze e) (hef : cellAt maze e = 0)
    (hret : astar maze s e fuel = some (some path)) :
    IsLeast {k | ∃ ms, RunOK maze (s, none) ms ∧ posAfter s ms = e ∧ ms.length = k}
      (path.length - 1) := by
  obtain ⟨ms, h1, h2, h3, h4, h5⟩ :=
    astarLoop_opt fuel [Node.root s none 0 0 0] [] path (inv_init maze s e) hret
  have hlen : path.length - 1 = ms.length := by
    rw [h4]
    simp
  rw [hlen]
  constructor
  · exact ⟨ms, h1, h3, rfl⟩
  · rintro k ⟨ms2, hr2, hp2, hl2⟩
    rw [← hl2]
    exact h5 ms2 hr2 hp2

instance (maze : List (List Int)) : Decidable (Rect maze) := by
  unfold Rect; infer_instance

set_option maxRecDepth 4000 in
/-- Witness for astar_optimal on the forced-corridor grid: the returned
7-point path has 6 moves, the least move count of any legal run. -/
theorem astar_optimal_witness :
    IsLeast {k | ∃ ms, RunOK [[0, 0, 0], [1, 1, 0], [0, 0, 0]] ((0, 0), none) ms ∧
        posAfter (0, 0) ms = (2, 0) ∧ ms.length = k}
      ([((0 : Int), (0 : Int)), (0, 1), (0, 2), (1, 2), (2, 2), (2, 1), (2, 0)].length - 1) :=
  astar_optimal [[0, 0, 0], [1, 1, 0], [0, 0, 0]] (0, 0) (2, 0) 16
    [(0, 0), (0, 1), (0, 2), (1, 2), (2, 2), (2, 1), (2, 0)]
    (by decide) (by decide) (by decide) (by decide) (by decide) (by decide)

lemma inv_iter {maze : List (List Int)} {s e : Int × Int} :
    ∀ (n : Nat) (op cl op2 cl2 : List Node),
      iterA maze e n (op, cl) = some (op2, cl2) →
      SearchInv maze s e op cl → SearchInv maze s e op2 cl2 := by
  intro n
  induction n with
  | zero =>
    intro op cl op2 cl2 h inv
    rw [iterA] at h
    injection h with h
    have h1 : op = op2 := congrArg Prod.fst h
    have h2 : cl = cl2 := congrArg Prod.snd h
    rw [← h1, ← h2]
    exact inv
  | succ n ih =>
    intro op cl op2 cl2 h inv
    rw [iterA] at h
    cases hs : stepA maze e (op, cl) with
    | done r => rw [hs] at h; cases h
    | cont c2 =>
      rw [hs] at h
      obtain ⟨o2, c2t⟩ := c2
      exact ih o2 c2t op2 cl2 h (inv_step inv hs)

/-- C4: in every configuration reachable by the search loop, the states of
the nodes on the closed list are pairwise distinct and no open node carries
a state already closed.  Since each iteration pops one open node and appends
it to the closed list, a state that has been popped and closed is never
popped and expanded again. -/
theorem closed_states_distinct (maze : List (List Int)) (s e : Int × Int) (n : Nat)
    (op cl : List Node)
    (hiter : iterA maze e n ([Node.root s none 0 0 0], []) = some (op, cl)) :
    ((op ++ cl).map nodeState).Nodup :=
  (inv_iter n [Node.root s none 0 0 0] [] op cl hiter (inv_init maze s e)).statesN

/-- Witness for closed_states_distinct after one iteration on a concrete
two-cell grid. -/
theorem closed_states_distinct_witness :
    ((([Node.child (Node.root (0, 0) none 0 0 0) (0, 1) (some (0, 1)) 1 0 1] : List Node) ++
        [Node.root (0, 0) none 0 0 0]).map nodeState).Nodup :=
  closed_states_distinct [[0, 0]] (0, 0) (0, 1) 1
    [Node.child (Node.root (0, 0) none 0 0 0) (0, 1) (some (0, 1)) 1 0 1]
    [Node.root (0, 0) none 0 0 0] (by decide)

lemma stepA_cont_closed {maze : List (List Int)} {e : Int × Int} {op cl op2 cl2 : List Node}
    (h : stepA maze e (op, cl) = .cont (op2, cl2)) :
    ∃ cur, cl2 = cl ++ [cur] := by
  rcases stepA_cases maze e op cl with ⟨-, h2⟩ | ⟨cur, l1, l2, -, -, -, hbr⟩
  · rw [h2] at h; cases h
  rcases hbr with ⟨-, h2⟩ | ⟨-, h2⟩
  · rw [h2] at h; cases h
  · rw [h2] at h
    injection h with hp
    exact ⟨cur, (congrArg Prod.snd hp).symm⟩

lemma loop_none_iter {maze : List (List Int)} {e : Int × Int} :
    ∀ (fuel : Nat) (op cl : List Node),
      astarLoop maze e fuel (op, cl) = none →
      ∃ op2 cl2, iterA maze e fuel (op, cl) = some (op2, cl2) ∧
        cl2.length = cl.length + fuel := by
  intro fuel
  induction fuel with
  | zero => intro op cl _; exact ⟨op, cl, rfl, by omega⟩
  | succ fuel ih =>
    intro op cl h
    rw [astarLoop] at h
    cases hs : stepA maze e (op, cl) with
    | done r => rw [hs] at h; cases h
    | cont c2 =>
      rw [hs] at h
      obtain ⟨o2, c2t⟩ := c2
      obtain ⟨op2, cl2, hit, hlen⟩ := ih o2 c2t h
      obtain ⟨cur, hc⟩ := stepA_cont_closed hs
      refine ⟨op2, cl2, ?_, ?_⟩
      · rw [iterA, hs]
        exact hit
      · rw [hlen, hc]
        simp
        omega

/-- The finite space of search states: the start state and all states with
an in-bounds position and one of the four directions. -/
def stateSpace (maze : List (List Int)) (s : Int × Int) :
    Finset ((Int × Int) × Option (Int × Int)) :=
  insert (s, none)
    ((Finset.Icc (0 : Int) ((maze.length : Int) - 1) ×ˢ
        Finset.Icc (0 : Int) (((maze.headD []).length : Int) - 1)) ×ˢ
      ({some UP, some RIGHT, some DOWN, some LEFT} : Finset (Option (Int × Int))))

lemma stateSpace_card (maze : List (List Int)) (s : Int × Int) :
    (stateSpace maze s).card ≤ maze.length * (maze.headD []).length * 4 + 1 := by
  unfold stateSpace
  refine le_trans (Finset.card_insert_le _ _) ?_
  rw [Finset.card_product, Finset.card_product]
  have hA : (Finset.Icc (0 : Int) ((maze.length : Int) - 1)).card = maze.length := by
    rw [Int.card_Icc]
    simp
  have hB : (Finset.Icc (0 : Int) (((maze.headD []).length : Int) - 1)).card =
      (maze.headD []).length := by
    rw [Int.card_Icc]
    simp
  have hD : ({some UP, some RIGHT, some DOWN, some LEFT} :
      Finset (Option (Int × Int))).card = 4 := by decide
  rw [hA, hB, hD]

lemma chain_state_mem {maze : List (List Int)} {s e : Int × Int} {n : Node}
    (hc : ChainOK maze s e n) : nodeState n ∈ stateSpace maze s := by
  cases n with
  | root p d g h f =>
    obtain ⟨hp, hd, -, -, -⟩ := hc
    have hstate : nodeState (Node.root p d g h f) = (s, none) := by
      simp [nodeState, Node.position, Node.direction, hp, hd]
    rw [hstate]
    exact Finset.mem_insert_self _ _
  | child par p d g h f =>
    obtain ⟨hpar, m, hd, hmv, hpos, hb, -, -, -, -⟩ := hc
    have hmdir : m ∈ DIRECTIONS := moveAllowed_dirs (chain_dirWF par hpar) hmv
    have hstate : nodeState (Node.child par p d g h f) = (p, d) := rfl
    rw [hstate]
    apply Finset.mem_insert_of_mem
    simp only [Finset.mem_product, Finset.mem_Icc]
    obtain ⟨h1, h2, h3, h4⟩ := hb
    refine ⟨⟨⟨h1, by omega⟩, h3, by omega⟩, ?_⟩
    · rw [hd]
      simp only [DIRECTIONS, List.mem_cons, List.mem_singleton] at hmdir
      rcases hmdir with rfl | rfl | rfl | (rfl | hfalse)
      · decide
      · decide
      · decide
      · decide
      · cases hfalse

lemma closed_card {maze : List (List Int)} {s e : Int × Int} {op cl : List Node}
    (inv : SearchInv maze s e op cl) :
    cl.length ≤ (stateSpace maze s).card := by
  have hnd : (cl.map nodeState).Nodup := by
    have h := inv.statesN
    rw [List.map_append] at h
    exact List.Nodup.sublist (List.sublist_append_right _ _) h
  have hsub : (cl.map nodeState).toFinset ⊆ stateSpace maze s := by
    intro x hx
    rw [List.mem_toFinset] at hx
    obtain ⟨m, hm, hms⟩ := List.mem_map.mp hx
    rw [← hms]
    exact chain_state_mem (inv.chainC m hm)
  calc cl.length = (cl.map nodeState).length := (List.length_map _ _).symm
    _ = (cl.map nodeState).toFinset.card := (List.toFinset_card_of_nodup hnd).symm
    _ ≤ _ := Finset.card_le_card hsub

/-- C5: astar terminates on every rectangular grid, reachable goal or not:
with fuel one more than the number of (position, direction) states the loop
has already returned, either with a path or with the no-path sentinel once
the open list empties. -/
theorem astar_terminates (maze : List (List Int)) (s e : Int × Int) (hrect : Rect maze) :
    ∃ r, astar maze s e (maze.length * (maze.headD []).length * 4 + 2) = some r := by
  cases hres : astar maze s e (maze.length * (maze.headD []).length * 4 + 2) with
  | some r => exact ⟨r, rfl⟩
  | none =>
    exfalso
    unfold astar at hres
    obtain ⟨op2, cl2, hiter, hlen⟩ := loop_none_iter _ _ _ hres
    have hinv := inv_iter _ _ _ _ _ hiter (inv_init maze s e)
    have hbound := closed_card hinv
    have hcard := stateSpace_card maze s
    rw [List.length_nil] at hlen
    set a := maze.length * (maze.headD []).length with ha
    omega

/-- Witness for astar_terminates on a grid whose goal is unreachable. -/
theorem astar_terminates_witness :
    ∃ r, astar [[0, 1, 0]] (0, 0) (0, 2)
      (([[0, 1, 0]] : List (List Int)).length *
        (([[0, 1, 0]] : List (List Int)).headD []).length * 4 + 2) = some r :=
  astar_terminates [[0, 1, 0]] (0, 0) (0, 2) (by decide)
